import Mathlib

/-!
# The SSE streaming client of go-toolkit (`sse/sse.go`)

A shallow embedding of the line decoder `readEvent` and of the run operation
`Do`, followed by the properties established about them.

Conventions of the embedding.

* A byte slice is a `List Char`: the line's text, one `Char` per code point.
  The three protocol constants are ASCII, so splitting and searching on code
  points agrees with splitting and searching on the UTF-8 bytes.
* `encoding/json`, `bufio` and `bytes` are library code.  `bytes.Index`,
  `bytes.Split`, `bytes.Contains`, `bytes.Compare`, `bytes.TrimSpace` and
  `bufio.Reader.ReadBytes` are modelled by their documented behaviour.
  `readEvent` takes the JSON decoder as an argument: `unmarshal raw` is the
  map the decode leaves when it succeeds, `none` when it fails or leaves a
  nil map.  `Unmarshal` below is the decoder of `encoding/json` on valid
  UTF-8 text, used when a concrete line is evaluated.
* The length of a line is its number of code points.  The one test on it,
  `len(line) < 2`, differs from the byte count only for a line of a single
  non-ASCII character, for which `readEvent` returns no event on either
  side of the test.
* Go's `nil` map and `nil` error are `none`.  An index out of range is the
  outcome `Outcome.panic`.
-/

namespace SSE

/-! ## Status constants (sse.go, lines 16-27) -/

def OK : Nat := 0
def ErrorOnClientCreation : Nat := 1
def ErrorRequestPerformed : Nat := 2
def ErrorConnectToStreaming : Nat := 3
def ErrorReadingStream : Nat := 4

/-! ## Byte slices -/

abbrev Bytes := List Char

def sseDelimiter : Bytes := [':', ' ']
def sseData : Bytes := ['d', 'a', 't', 'a']
def sseKeepAlive : Bytes := [':', 'k', 'e', 'e', 'p', 'a', 'l', 'i', 'v', 'e']

/-- The position of the first occurrence of `sep` in `s` (`bytes.Index`;
`none` stands for Go's `-1`). -/
def Index (sep : Bytes) : Bytes → Option Nat
  | [] => if sep.isEmpty then some 0 else none
  | c :: cs =>
    if sep.isPrefixOf (c :: cs) then some 0
    else (Index sep cs).map (fun m => m + 1)

/-- Whether `sub` occurs in `b` (`bytes.Contains`: `Index(b, sub) != -1`). -/
def Contains (b sub : Bytes) : Bool := (Index sub b).isSome

/-- The loop of `bytes.Split` for a non-empty separator: cut at the leftmost
occurrence, continue behind it.  `fuel` bounds the number of cuts. -/
def genSplit (sep : Bytes) : Nat → Bytes → List Bytes
  | 0, s => [s]
  | fuel + 1, s =>
    match Index sep s with
    | none => [s]
    | some m => s.take m :: genSplit sep fuel (s.drop (m + sep.length))

/-- All subslices of `s` separated by `sep` (`bytes.Split(s, sep)`, `sep`
non-empty).  A slice of length `n` holds at most `n` separators. -/
def Split (s sep : Bytes) : List Bytes := genSplit sep s.length s

/-- Three-way lexicographic comparison (`bytes.Compare`). -/
def Compare : Bytes → Bytes → Int
  | [], [] => 0
  | [], _ :: _ => -1
  | _ :: _, [] => 1
  | a :: as, b :: bs =>
    if a.toNat < b.toNat then -1
    else if b.toNat < a.toNat then 1
    else Compare as bs

/-- White space as defined by Unicode (`unicode.IsSpace`). -/
def isSpace (c : Char) : Bool :=
  let n := c.toNat
  n == 0x09 || n == 0x0A || n == 0x0B || n == 0x0C || n == 0x0D || n == 0x20 ||
  n == 0x85 || n == 0xA0 || n == 0x1680 || (0x2000 ≤ n && n ≤ 0x200A) ||
  n == 0x2028 || n == 0x2029 || n == 0x202F || n == 0x205F || n == 0x3000

/-- The slice without its leading and trailing white space
(`bytes.TrimSpace`). -/
def TrimSpace (s : Bytes) : Bytes :=
  ((s.dropWhile isSpace).reverse.dropWhile isSpace).reverse

/-! ## Events and the JSON decoder -/

/-- What `encoding/json` stores into an `interface{}`.  A number, which Go
stores as the `float64` nearest to it, keeps its literal here; a literal
that has no finite `float64` is refused by the decoder below, as in Go. -/
inductive JSONValue where
  | null : JSONValue
  | bool (b : Bool) : JSONValue
  | number (literal : String) : JSONValue
  | string (s : String) : JSONValue
  | array (items : List JSONValue) : JSONValue
  | object (fields : List (String × JSONValue)) : JSONValue

/-- A non-nil `map[string]interface{}`: the keys in order of first
assignment, each with its current value. -/
abbrev Event := List (String × JSONValue)

/-- The map after `m[k] = v`. -/
def mapAssign (k : String) (v : JSONValue) : Event → Event
  | [] => [(k, v)]
  | (k', v') :: rest =>
    if k' = k then (k, v) :: rest else (k', v') :: mapAssign k v rest

def skipSpace : Bytes → Bytes
  | [] => []
  | c :: cs =>
    if c = ' ' ∨ c = '\t' ∨ c = '\n' ∨ c = '\r' then skipSpace cs else c :: cs

def hexDigit (c : Char) : Option Nat :=
  let n := c.toNat
  if 48 ≤ n ∧ n ≤ 57 then some (n - 48)
  else if 97 ≤ n ∧ n ≤ 102 then some (n - 87)
  else if 65 ≤ n ∧ n ≤ 70 then some (n - 55)
  else none

def hex4 (a b c d : Char) : Option Nat :=
  match hexDigit a, hexDigit b, hexDigit c, hexDigit d with
  | some w, some x, some y, some z => some (((w * 16 + x) * 16 + y) * 16 + z)
  | _, _, _, _ => none

def isDigit (c : Char) : Bool := 48 ≤ c.toNat && c.toNat ≤ 57

/-- The code units of a string literal behind its opening quote, up to the
closing quote, in reverse: a plain character gives its code point, an escape
`\\uXXXX` its 16-bit unit. -/
def parseUnits : Bytes → List Nat → Option (List Nat × Bytes)
  | [], _ => none
  | '"' :: rest, acc => some (acc, rest)
  | '\\' :: 'u' :: a :: b :: c :: d :: rest, acc =>
    match hex4 a b c d with
    | none => none
    | some n => parseUnits rest (n :: acc)
  | '\\' :: e :: rest, acc =>
    if e = '"' then parseUnits rest (34 :: acc)
    else if e = '\\' then parseUnits rest (92 :: acc)
    else if e = '/' then parseUnits rest (47 :: acc)
    else if e = 'b' then parseUnits rest (8 :: acc)
    else if e = 'f' then parseUnits rest (12 :: acc)
    else if e = 'n' then parseUnits rest (10 :: acc)
    else if e = 'r' then parseUnits rest (13 :: acc)
    else if e = 't' then parseUnits rest (9 :: acc)
    else none
  | c :: rest, acc =>
    if c.toNat < 0x20 then none else parseUnits rest (c.toNat :: acc)

/-- The characters of a sequence of code units: a surrogate pair gives one
character, a lone surrogate the replacement character.  `high` is the high
surrogate read just before, if any. -/
def decodeUnits : Option Nat → List Nat → List Char
  | none, [] => []
  | some _, [] => [Char.ofNat 0xFFFD]
  | none, n :: tail =>
    if 0xD800 ≤ n ∧ n < 0xDC00 then decodeUnits (some n) tail
    else if 0xDC00 ≤ n ∧ n < 0xE000 then Char.ofNat 0xFFFD :: decodeUnits none tail
    else Char.ofNat n :: decodeUnits none tail
  | some h, n :: tail =>
    if 0xDC00 ≤ n ∧ n < 0xE000 then
      Char.ofNat (0x10000 + (h - 0xD800) * 0x400 + (n - 0xDC00)) :: decodeUnits none tail
    else if 0xD800 ≤ n ∧ n < 0xDC00 then Char.ofNat 0xFFFD :: decodeUnits (some n) tail
    else Char.ofNat 0xFFFD :: Char.ofNat n :: decodeUnits none tail

/-- The string literal behind its opening quote and the input behind its
closing quote. -/
def parseString (s : Bytes) : Option (String × Bytes) :=
  (parseUnits s []).map (fun p => (String.mk (decodeUnits none p.1.reverse), p.2))

/-- The longest prefix of digits and what follows it. -/
def spanDigits : Bytes → Bytes × Bytes
  | [] => ([], [])
  | c :: cs =>
    if isDigit c then ((spanDigits cs).1.cons c, (spanDigits cs).2)
    else ([], c :: cs)

/-- The number a sequence of decimal digits denotes. -/
def digitsValue (ds : Bytes) : Nat :=
  ds.foldl (fun n c => 10 * n + (c.toNat - 48)) 0

/-- The least number that does not round to a finite `float64`: half a unit
in the last place above the largest one, `2^1024 - 2^970`. -/
def float64Overflow : Nat := (2 ^ 256) ^ 4 - (2 ^ 194) ^ 5

/-- Whether the decimal with the digits `ds`, the last `scale` of them
behind the point, and the exponent `exp` (negative when `expNeg`) is out of
the range of `float64`, where `strconv.ParseFloat` returns a range error.
A value that is too small rounds to zero and is no error. -/
def overflowsFloat64 (ds : Bytes) (scale : Nat) (expNeg : Bool) (exp : Nat) : Bool :=
  let mantissa := digitsValue ds
  if mantissa = 0 then false
  else if expNeg then
    if ds.length < exp + scale then false
    else decide (float64Overflow * 10 ^ (exp + scale) ≤ mantissa)
  else if exp < scale then
    decide (float64Overflow * 10 ^ (scale - exp) ≤ mantissa)
  else if 400 < exp - scale then true
  else decide (float64Overflow ≤ mantissa * 10 ^ (exp - scale))

/-- A number literal: `-? (0 | [1-9][0-9]*) (. [0-9]+)? ([eE] [+-]? [0-9]+)?`,
refused when it is out of the range of `float64`. -/
def parseNumber (s : Bytes) : Option (String × Bytes) :=
  let (sign, s1) : Bytes × Bytes :=
    match s with
    | '-' :: t => (['-'], t)
    | _ => ([], s)
  let (int, s2) := spanDigits s1
  if int = [] ∨ (int.head? = some '0' ∧ int.length ≠ 1) then none
  else
    let frac : Option (Bytes × Bytes) :=
      match s2 with
      | '.' :: t =>
        let (ds, t2) := spanDigits t
        if ds = [] then none else some (ds, t2)
      | _ => some ([], s2)
    match frac with
    | none => none
    | some (fr, s3) =>
      let exp : Option ((Bytes × Bool × Bytes) × Bytes) :=
        match s3 with
        | e :: t =>
          if e = 'e' ∨ e = 'E' then
            let (sg, t1) : Bytes × Bytes :=
              match t with
              | '+' :: u => (['+'], u)
              | '-' :: u => (['-'], u)
              | _ => ([], t)
            let (ds, t2) := spanDigits t1
            if ds = [] then none else some ((e :: sg, decide (sg = ['-']), ds), t2)
          else some (([], false, []), s3)
        | [] => some (([], false, []), s3)
      match exp with
      | none => none
      | some ((mark, expNeg, ex), s4) =>
        if overflowsFloat64 (int ++ fr) fr.length expNeg (digitsValue ex) then none
        else
          some (String.mk (sign ++ int ++ (if fr = [] then [] else '.' :: fr) ++ mark ++ ex), s4)

/-- The nesting depth beyond which the scanner of `encoding/json` gives up
(`maxNestingDepth`). -/
def maxNestingDepth : Nat := 10000

mutual

/-- One JSON value at the head of the input (no leading white space), at
nesting depth `depth`. -/
def parseValue : Nat → Nat → Bytes → Option (JSONValue × Bytes)
  | 0, _, _ => none
  | fuel + 1, depth, s =>
    match s with
    | '{' :: rest =>
      if maxNestingDepth ≤ depth then none
      else
        match skipSpace rest with
        | '}' :: rest2 => some (JSONValue.object [], rest2)
        | rest2 =>
          (parseMembers fuel (depth + 1) rest2 []).map (fun p => (JSONValue.object p.1, p.2))
    | '[' :: rest =>
      if maxNestingDepth ≤ depth then none
      else
        match skipSpace rest with
        | ']' :: rest2 => some (JSONValue.array [], rest2)
        | rest2 =>
          (parseItems fuel (depth + 1) rest2 []).map (fun p => (JSONValue.array p.1, p.2))
    | '"' :: rest => (parseString rest).map (fun p => (JSONValue.string p.1, p.2))
    | 't' :: 'r' :: 'u' :: 'e' :: rest => some (JSONValue.bool true, rest)
    | 'f' :: 'a' :: 'l' :: 's' :: 'e' :: rest => some (JSONValue.bool false, rest)
    | 'n' :: 'u' :: 'l' :: 'l' :: rest => some (JSONValue.null, rest)
    | _ => (parseNumber s).map (fun p => (JSONValue.number p.1, p.2))

/-- The members of an object behind `{`, the input standing at a key. -/
def parseMembers : Nat → Nat → Bytes → Event → Option (Event × Bytes)
  | 0, _, _, _ => none
  | fuel + 1, depth, s, acc =>
    match s with
    | '"' :: rest =>
      match parseString rest with
      | none => none
      | some (k, rest2) =>
        match skipSpace rest2 with
        | ':' :: rest3 =>
          match parseValue fuel depth (skipSpace rest3) with
          | none => none
          | some (v, rest4) =>
            match skipSpace rest4 with
            | ',' :: rest5 => parseMembers fuel depth (skipSpace rest5) (mapAssign k v acc)
            | '}' :: rest5 => some (mapAssign k v acc, rest5)
            | _ => none
        | _ => none
    | _ => none

/-- The items of an array behind `[`, the input standing at a value. -/
def parseItems : Nat → Nat → Bytes → List JSONValue → Option (List JSONValue × Bytes)
  | 0, _, _, _ => none
  | fuel + 1, depth, s, acc =>
    match parseValue fuel depth s with
    | none => none
    | some (v, rest) =>
      match skipSpace rest with
      | ',' :: rest2 => parseItems fuel depth (skipSpace rest2) (acc ++ [v])
      | ']' :: rest2 => some (acc ++ [v], rest2)
      | _ => none

end

/-- The map that `data` holds after `json.Unmarshal(raw, &data)`, for `data`
an empty `map[string]interface{}`, when the call returns no error: `some m`
for a map `m` that is not nil, `none` for a nil map or an error.  The input
must be one JSON value between optional white space.  An object fills the
map; `null` sets the map to nil; any other value is a type error, and so
are a number out of the range of `float64` and a nesting deeper than
`maxNestingDepth`.  The fuel `2 * raw.length + 2` is more than the parser
uses. -/
def Unmarshal (raw : Bytes) : Option Event :=
  match parseValue (2 * raw.length + 2) 0 (skipSpace raw) with
  | none => none
  | some (v, rest) =>
    match skipSpace rest with
    | [] =>
      match v with
      | JSONValue.object fields => some fields
      | _ => none
    | _ :: _ => none

/-! ## The buffered reader -/

/-- An error value of a read: the sentinel `io.EOF` or any other error. -/
inductive IOError where
  | EOF : IOError
  | other (msg : String) : IOError
  deriving DecidableEq

/-- The response body behind a `bufio.Reader`: the bytes it will still
deliver and the error its `Read` reports once they are used up (`io.EOF`
for a stream that ends). -/
structure Reader where
  pending : Bytes
  failure : IOError

/-- The input up to and including the first `delim`, and what follows it. -/
def cutAfter (delim : Char) : Bytes → Option (Bytes × Bytes)
  | [] => none
  | c :: cs =>
    if c = delim then some ([c], cs)
    else (cutAfter delim cs).map (fun p => (c :: p.1, p.2))

/-- One call of `reader.ReadBytes(delim)`: the bytes up to and including the
first `delim` and no error, or, when the input runs out before a `delim`,
the bytes read so far together with the error. -/
def ReadBytes (r : Reader) (delim : Char) : Bytes × Option IOError × Reader :=
  match cutAfter delim r.pending with
  | some (line, rest) => (line, none, { r with pending := rest })
  | none => (r.pending, some r.failure, { r with pending := [] })

/-! ## readEvent (sse.go, lines 71-111) -/

/-- A call either returns a value or dies of a run-time panic. -/
inductive Outcome (α : Type) where
  | panic : Outcome α
  | ret (a : α) : Outcome α

/-- The function `parseData` (lines 71-78) over the decoder `unmarshal`: the
map it returns, `none` being nil.  It returns a nil map when the decoder
fails, and the decoded map otherwise, which is nil when the decoder left it
nil.  The error it returns besides is only logged by `readEvent`, which
returns the map and a nil error in either case (lines 104-110). -/
def parseData (unmarshal : Bytes → Option Event) (raw : Bytes) : Option Event :=
  match unmarshal raw with
  | none => none
  | some data => some data

/-- The map built for a keep-alive line (lines 94-95): the key `event` with
the bytes of `sseKeepAlive[1:]` as a string. -/
def keepAliveEvent : Event :=
  mapAssign "event" (JSONValue.string (String.mk (sseKeepAlive.drop 1))) []

/-- Lines 82-110 of `readEvent`, for a line read `(line, err)`. -/
def readEventOn (unmarshal : Bytes → Option Event) (line : Bytes)
    (err : Option IOError) : Outcome (Option Event × Option IOError) :=
  if err ≠ none ∧ err ≠ some IOError.EOF then Outcome.ret (none, err)
  else if line.length < 2 then Outcome.ret (none, none)
  else
    let splitted := Split line sseDelimiter
    match splitted with
    | [] => Outcome.panic
    | first :: more =>
      if Contains first sseKeepAlive then Outcome.ret (some keepAliveEvent, none)
      else if Compare first sseData ≠ 0 then Outcome.ret (none, none)
      else
        match more with
        | [] => Outcome.panic
        | second :: _ =>
          match parseData unmarshal (TrimSpace second) with
          | none => Outcome.ret (none, none)
          | some data => Outcome.ret (some data, none)

/-- The function `readEvent` (lines 80-111): read one line, decode it. -/
def readEvent (unmarshal : Bytes → Option Event) (reader : Reader) :
    Outcome (Option Event × Option IOError) × Reader :=
  let (line, err, reader') := ReadBytes reader '\n'
  (readEventOn unmarshal line err, reader')

/-! ## Do (sse.go, lines 113-174)

`Do` is one goroutine.  Its run is recorded as the sequence of its channel
operations, goroutine launches, waits and body close, together with how the
run stands at the end.  What the rest of the program does is an input:

* the three channels are fresh when `Do` starts, as `NewSSEClient` and the
  caller make them for one run, and whoever listens on the status channel
  receives every value, so that a send on it completes;
* `Do` itself is the only sender on the stopped channel (line 115), so a
  receive on it that finds no value stays parked;
* an outside call of `Shutdown` places its request between two iterations of
  the loop; `shutdownAt = some k` says that the select of iteration `k`
  (counted from 0) is the first to find it.

Log lines are not recorded. -/

/-- The operations of `Do` that other goroutines can observe. -/
inductive Action where
  | sendStatus (code : Nat) : Action
  | recvShutdown : Action
  | launch (event : Event) : Action
  | sendShutdown : Action
  | logUnexpected : Action
  | recvStopped : Action
  | waitGoroutines : Action
  | closeBody : Action
  | sendStopped : Action

/-- How a run stands: it has returned, it has left by a panic, it is parked
on the receive from the stopped channel, or it is still in the loop (the
iterations counted by the fuel are used up). -/
inductive Exit where
  | returned : Exit
  | panicked : Exit
  | blocked : Exit
  | running : Exit
  deriving DecidableEq

structure Run where
  trace : List Action
  exit : Exit

/-- The contents of the two channels `Shutdown` works on: the requests
waiting on `l.shutdown` (capacity 1) and the values waiting on `l.stopped`. -/
structure Chans where
  shutdown : Nat
  stopped : Nat

/-- The method `Shutdown` (lines 62-69): the select places a request when
the shutdown channel has room and logs otherwise; then the receive from the
stopped channel takes a value, or parks when there is none. -/
def Shutdown (ch : Chans) : Run × Chans :=
  let requested : List Action × Chans :=
    if ch.shutdown < 1 then ([Action.sendShutdown], { ch with shutdown := ch.shutdown + 1 })
    else ([Action.logUnexpected], ch)
  if requested.2.stopped = 0 then (⟨requested.1, Exit.blocked⟩, requested.2)
  else
    (⟨requested.1 ++ [Action.recvStopped], Exit.returned⟩,
      { requested.2 with stopped := requested.2.stopped - 1 })

/-- What the outside of `Do` supplies to one run. -/
structure Env where
  requestFails : Bool
  transportFails : Bool
  statusCode : Nat
  body : Reader
  shutdownAt : Option Nat

/-- Whether the select of iteration `i` finds a shutdown request. -/
def shutdownPending (shutdownAt : Option Nat) (i : Nat) : Bool :=
  match shutdownAt with
  | none => false
  | some k => decide (k ≤ i)

/-- Lines 150-173 of `Do`: the loop from its iteration `i` on, at most
`fuel` iterations of it, and the wait behind the loop.  A read error sends
`ErrorReadingStream` and calls `Shutdown` on the channels as they are then
(no request waiting, nothing on the stopped channel); the `return` behind
that call is reached when `Shutdown` returns. -/
def streamLoop (unmarshal : Bytes → Option Event) (shutdownAt : Option Nat) :
    Nat → Nat → Reader → Run
  | 0, _, _ => ⟨[], Exit.running⟩
  | fuel + 1, i, reader =>
    if shutdownPending shutdownAt i then
      ⟨[Action.recvShutdown, Action.waitGoroutines], Exit.returned⟩
    else
      match readEvent unmarshal reader with
      | (Outcome.panic, _) => ⟨[], Exit.panicked⟩
      | (Outcome.ret (_, some _), _) =>
        let down := (Shutdown ⟨0, 0⟩).1
        ⟨Action.sendStatus ErrorReadingStream :: down.trace, down.exit⟩
      | (Outcome.ret (some event, none), reader') =>
        let rest := streamLoop unmarshal shutdownAt fuel (i + 1) reader'
        ⟨Action.launch event :: rest.trace, rest.exit⟩
      | (Outcome.ret (none, none), reader') =>
        streamLoop unmarshal shutdownAt fuel (i + 1) reader'

/-- A function body with deferred calls: they run when the body returns or
panics, and not while it is parked or still running. -/
def withDeferred (deferred : List Action) (run : Run) : Run :=
  match run.exit with
  | Exit.returned => ⟨run.trace ++ deferred, Exit.returned⟩
  | Exit.panicked => ⟨run.trace ++ deferred, Exit.panicked⟩
  | Exit.blocked => run
  | Exit.running => run

/-- The method `Do` (lines 114-174), the loop running at most `fuel`
iterations.  The send on the stopped channel is deferred first (line 115),
the close of the body second (line 145), so the close runs first. -/
def Do (unmarshal : Bytes → Option Event) (env : Env) (fuel : Nat) : Run :=
  withDeferred [Action.sendStopped]
    (if env.requestFails then ⟨[Action.sendStatus ErrorOnClientCreation], Exit.returned⟩
     else if env.transportFails then ⟨[Action.sendStatus ErrorRequestPerformed], Exit.returned⟩
     else if env.statusCode ≠ 200 then
       ⟨[Action.sendStatus ErrorConnectToStreaming], Exit.returned⟩
     else
       let run := withDeferred [Action.closeBody]
         (streamLoop unmarshal env.shutdownAt fuel 0 env.body)
       ⟨Action.sendStatus OK :: run.trace, run.exit⟩)

/-! ## Reading a trace -/

/-- The codes sent on the status channel, in order. -/
def statusSends : List Action → List Nat
  | [] => []
  | Action.sendStatus code :: rest => code :: statusSends rest
  | _ :: rest => statusSends rest

/-- The events the callback goroutines were launched with, in order. -/
def launches : List Action → List Event
  | [] => []
  | Action.launch event :: rest => event :: launches rest
  | _ :: rest => launches rest

/-- The number of sends on the stopped channel. -/
def stoppedSends : List Action → Nat
  | [] => 0
  | Action.sendStopped :: rest => stoppedSends rest + 1
  | _ :: rest => stoppedSends rest

/-- The number of waits on the group of callback goroutines. -/
def waits : List Action → Nat
  | [] => 0
  | Action.waitGoroutines :: rest => waits rest + 1
  | _ :: rest => waits rest

/-- A run, given as a function of the number of loop iterations observed,
that is still in the loop at every one of them and has sent nothing on the
stopped channel. -/
def NeverStops (run : Nat → Run) : Prop :=
  ∀ fuel, (run fuel).exit = Exit.running ∧ stoppedSends (run fuel).trace = 0

/-- The event `readEvent` returns for a line read without error, if any. -/
def decoded (unmarshal : Bytes → Option Event) (line : Bytes) : Option Event :=
  match readEventOn unmarshal line none with
  | Outcome.ret (event, _) => event
  | Outcome.panic => none

/-! ## NewSSEClient (sse.go, lines 33-59) -/

/-- A buffered channel: its capacity and the values waiting in it. -/
structure Chan (α : Type) where
  cap : Nat
  buf : List α

/-- The struct `SSEClient` (lines 34-41), without the HTTP client and the
logger. -/
structure SSEClient where
  url : String
  status : Chan Int
  stopped : Chan Unit
  shutdown : Chan Unit

/-- The function `NewSSEClient` (lines 44-59): the client, or the error
message. -/
def NewSSEClient (url : String) (status : Chan Int) (stopped : Chan Unit) :
    Except String SSEClient :=
  if status.cap < 1 then Except.error "Status channel should have length"
  else if stopped.cap < 1 then Except.error "Stopped channel should have length"
  else
    Except.ok
      { url := url, status := status, stopped := stopped, shutdown := { cap := 1, buf := [] } }

end SSE

/-! # Package `common` -/

namespace Common

/-! ## refutil.go

A pointer to an `int64` is an `Option Int`, `nil` being `none`; the
functions below do no arithmetic, so the range of `int64` plays no part. -/

/-- The function `Int64Ref` (lines 11-13). -/
def Int64Ref (number : Int) : Option Int := some number

/-- The function `Int64Value` (lines 19-24). -/
def Int64Value (number : Option Int) : Int :=
  match number with
  | none => 0
  | some n => n

/-- The function `Int64RefOrNil` (lines 33-38). -/
def Int64RefOrNil (number : Int) : Option Int :=
  if number = 0 then none else Int64Ref number

/-! ## iterutil.go -/

/-- Modelled from the spec: the loop of `WithAttempts`, whose file
`common/iterutil.go` is not among the sources (only its test is).  The
function `main` is called until a call returns nil or no attempt remains.
`main k` is what the call number `k` (from 0) returns, `none` being nil;
`calls` counts the calls made so far and `err` is the last error.  The
result is the error returned and the number of calls made. -/
def attemptLoop (main : Nat → Option String) : Nat → Nat → Option String → Option String × Nat
  | 0, calls, err => (err, calls)
  | remaining + 1, calls, _ =>
    match main calls with
    | none => (none, calls + 1)
    | some e => attemptLoop main remaining (calls + 1) (some e)

/-- Modelled from the spec: `WithAttempts(attempts, main)`, the retry helper
with an attempt limit that `TestWithAttempts` exercises; its file
`common/iterutil.go` is not among the sources. -/
def WithAttempts (attempts : Nat) (main : Nat → Option String) : Option String × Nat :=
  attemptLoop main attempts 0 none

end Common

namespace SSE

/-! ## Properties of readEvent -/

theorem readEventOn_read_error (unmarshal : Bytes → Option Event) (line : Bytes)
    (e : IOError) (he : e ≠ IOError.EOF) :
    readEventOn unmarshal line (some e) = Outcome.ret (none, some e) := by
  unfold readEventOn
  rw [if_pos]
  exact ⟨by simp, by simpa using he⟩

theorem readEventOn_no_read_error (unmarshal : Bytes → Option Event) (line : Bytes)
    (err : Option IOError) (herr : err = none ∨ err = some IOError.EOF)
    (ev : Option Event) (e : IOError) :
    readEventOn unmarshal line err ≠ Outcome.ret (ev, some e) := by
  have hcond : ¬ (err ≠ none ∧ err ≠ some IOError.EOF) := by
    rcases herr with h | h <;> simp [h]
  unfold readEventOn
  rw [if_neg hcond]
  split_ifs
  · simp
  · dsimp only
    split
    · simp
    · split_ifs
      · simp
      · simp
      · split
        · simp
        · split <;> simp

/-- C1.  The payload of a `data` line is cut at the second `: `.  The line
`data: {"k": "v"}` holds a JSON object that decodes to the map with the one
key `k`, yet `readEvent` hands only `{"k"` to the decoder and returns no
event; the same object written without the space, `data: {"k":"v"}`, is
returned as that map. -/
theorem readEvent_drops_payload_with_delimiter :
    Unmarshal "\x7b\"k\": \"v\"\x7d".toList = some [("k", JSONValue.string "v")] ∧
    (readEvent Unmarshal ⟨"data: \x7b\"k\": \"v\"\x7d\n".toList, IOError.EOF⟩).1
      = Outcome.ret (none, none) ∧
    Split "data: \x7b\"k\": \"v\"\x7d\n".toList sseDelimiter
      = ["data".toList, "\x7b\"k\"".toList, "\"v\"\x7d\n".toList] ∧
    (readEvent Unmarshal ⟨"data: \x7b\"k\":\"v\"\x7d\n".toList, IOError.EOF⟩).1
      = Outcome.ret (some [("k", JSONValue.string "v")], none) :=
  ⟨rfl, rfl, rfl, rfl⟩

/-- C4.  The line `data` cut off by the end of the stream has four bytes and
no `: `; the split gives the single piece `data`, which passes the test
against `sseData`, and the access to the second piece is out of range:
`readEvent` panics, whatever the decoder. -/
theorem readEvent_panics_on_bare_data (unmarshal : Bytes → Option Event) :
    Contains "data".toList sseDelimiter = false ∧
    Split "data".toList sseDelimiter = ["data".toList] ∧
    readEventOn unmarshal "data".toList (some IOError.EOF) = Outcome.panic ∧
    (readEvent unmarshal ⟨"data".toList, IOError.EOF⟩).1 = Outcome.panic :=
  ⟨rfl, rfl, rfl, rfl⟩

/-- C6.  In the line `data: {}: x` the value behind the first `: ` is
`{}: x`, which is not JSON, yet `readEvent` decodes only the piece `{}` and
returns the empty map as an event instead of no event. -/
theorem readEvent_accepts_truncated_payload :
    Unmarshal (TrimSpace "\x7b\x7d: x\n".toList) = none ∧
    (readEvent Unmarshal ⟨"data: \x7b\x7d: x\n".toList, IOError.EOF⟩).1
      = Outcome.ret (some [], none) ∧
    (readEvent Unmarshal ⟨"data: not-json\n".toList, IOError.EOF⟩).1
      = Outcome.ret (none, none) :=
  ⟨rfl, rfl, rfl⟩

/-- C7.  `readEvent` returns the error `e` together with the event `ev`
exactly when the line read failed with `e`, `e` is not `io.EOF` and `ev` is
nil: whatever the bytes read and whatever the decoder, no other error is
ever returned. -/
theorem readEvent_error_iff (unmarshal : Bytes → Option Event) (reader : Reader)
    (ev : Option Event) (e : IOError) :
    (readEvent unmarshal reader).1 = Outcome.ret (ev, some e) ↔
      (ev = none ∧ (ReadBytes reader '\n').2.1 = some e ∧ e ≠ IOError.EOF) := by
  have hfst : (readEvent unmarshal reader).1 =
      readEventOn unmarshal (ReadBytes reader '\n').1 (ReadBytes reader '\n').2.1 := rfl
  rw [hfst]
  constructor
  · intro h
    by_cases hcond : (ReadBytes reader '\n').2.1 = none ∨
        (ReadBytes reader '\n').2.1 = some IOError.EOF
    · exact absurd h (readEventOn_no_read_error unmarshal _ _ hcond ev e)
    · push_neg at hcond
      obtain ⟨e', he'⟩ := Option.ne_none_iff_exists'.mp hcond.1
      have hne : e' ≠ IOError.EOF := by
        intro h'
        exact hcond.2 (by rw [he', h'])
      rw [he', readEventOn_read_error unmarshal _ e' hne] at h
      simp only [Outcome.ret.injEq, Prod.mk.injEq, Option.some.injEq] at h
      obtain ⟨h1, h2⟩ := h
      subst h2
      exact ⟨h1.symm, he', hne⟩
  · rintro ⟨h1, h2, h3⟩
    rw [h1, h2]
    exact readEventOn_read_error unmarshal _ e h3

/-! ## Searching and splitting -/

theorem Index_eq_none_iff (sep s : Bytes) : Index sep s = none ↔ ¬ sep <:+: s := by
  induction s with
  | nil =>
    cases sep with
    | nil => simp [Index]
    | cons a as => simp [Index]
  | cons c cs ih =>
    simp only [Index]
    by_cases h : sep.isPrefixOf (c :: cs) = true
    · rw [if_pos h]
      have hp := List.isPrefixOf_iff_prefix.mp h
      simp [List.infix_cons_iff, hp]
    · rw [if_neg h]
      have hp : ¬ sep <+: c :: cs := fun hp => h (List.isPrefixOf_iff_prefix.mpr hp)
      simp [List.infix_cons_iff, hp, ih]

theorem Contains_iff_occurs (b sub : Bytes) : Contains b sub = true ↔ sub <:+: b := by
  unfold Contains
  rw [Option.isSome_iff_ne_none, Ne, Index_eq_none_iff, not_not]

theorem genSplit_ne_nil (sep : Bytes) (fuel : Nat) (s : Bytes) : genSplit sep fuel s ≠ [] := by
  cases fuel with
  | zero => simp [genSplit]
  | succ n =>
    unfold genSplit
    split <;> simp

theorem Split_cases (s sep : Bytes) (hsep : sep ≠ []) :
    (Index sep s = none ∧ Split s sep = [s]) ∨
    (∃ m second more, Index sep s = some m ∧ Split s sep = s.take m :: second :: more) := by
  unfold Split
  cases hidx : Index sep s with
  | none =>
    left
    refine ⟨rfl, ?_⟩
    cases s.length with
    | zero => rfl
    | succ n => simp [genSplit, hidx]
  | some m =>
    right
    cases hlen : s.length with
    | zero =>
      have hs : s = [] := List.length_eq_zero.mp hlen
      subst hs
      cases sep with
      | nil => exact absurd rfl hsep
      | cons a as => simp [Index] at hidx
    | succ n =>
      obtain ⟨second, more, hrest⟩ :=
        List.exists_cons_of_ne_nil (genSplit_ne_nil sep n (s.drop (m + sep.length)))
      exact ⟨m, second, more, rfl, by simp [genSplit, hidx, hrest]⟩

theorem Index_cons_of_not_prefix (sep : Bytes) (c : Char) (cs : Bytes)
    (h : ¬ sep <+: c :: cs) :
    Index sep (c :: cs) = (Index sep cs).map (fun m => m + 1) := by
  have hp : ¬ sep.isPrefixOf (c :: cs) = true := fun hp => h (List.isPrefixOf_iff_prefix.mp hp)
  simp only [Index]
  rw [if_neg hp]

theorem Index_of_prefix (sep s : Bytes) (h : sep <+: s) : Index sep s = some 0 := by
  cases s with
  | nil =>
    have hs : sep = [] := List.prefix_nil.mp h
    subst hs
    rfl
  | cons c cs =>
    simp only [Index]
    rw [if_pos (List.isPrefixOf_iff_prefix.mpr h)]

theorem Index_delimiter_append (pre t : Bytes) (h : ¬ sseDelimiter <:+: pre) :
    Index sseDelimiter (pre ++ (sseDelimiter ++ t)) = some pre.length := by
  induction pre with
  | nil => exact Index_of_prefix _ _ ⟨t, rfl⟩
  | cons c cs ih =>
    have hcs : ¬ sseDelimiter <:+: cs := fun hc => h (List.infix_cons_iff.mpr (Or.inr hc))
    have hpre : ¬ sseDelimiter <+: c :: cs := fun hc => h (List.infix_cons_iff.mpr (Or.inl hc))
    have hnot : ¬ sseDelimiter <+: c :: (cs ++ (sseDelimiter ++ t)) := by
      rintro ⟨u, hu⟩
      apply hpre
      cases cs with
      | nil =>
        simp only [sseDelimiter, List.cons_append, List.nil_append, List.cons.injEq] at hu
        exact absurd hu.2.1 (by decide)
      | cons d ds =>
        simp only [sseDelimiter, List.cons_append, List.nil_append, List.cons.injEq] at hu
        obtain ⟨h1, h2, _⟩ := hu
        subst h1
        subst h2
        exact ⟨ds, rfl⟩
    rw [List.cons_append, Index_cons_of_not_prefix _ _ _ hnot, ih hcs]
    rfl

theorem Compare_eq_zero (a b : Bytes) (h : Compare a b = 0) : a = b := by
  induction a generalizing b with
  | nil =>
    cases b with
    | nil => rfl
    | cons y ys => simp [Compare] at h
  | cons x xs ih =>
    cases b with
    | nil => simp [Compare] at h
    | cons y ys =>
      simp only [Compare] at h
      by_cases h1 : x.toNat < y.toNat
      · rw [if_pos h1] at h
        exact absurd h (by decide)
      · rw [if_neg h1] at h
        by_cases h2 : y.toNat < x.toNat
        · rw [if_pos h2] at h
          exact absurd h (by decide)
        · rw [if_neg h2] at h
          have hxy : x.toNat = y.toNat := by omega
          have hc : x = y := by
            have := congrArg Char.ofNat hxy
            simpa [Char.ofNat_toNat] using this
          rw [hc, ih ys h]

theorem Compare_self (a : Bytes) : Compare a a = 0 := by
  induction a with
  | nil => rfl
  | cons x xs ih => simp [Compare, ih]

/-- `readEvent` panics on exactly one line: the four bytes `data` delivered
together with the end of the stream. -/
theorem readEventOn_panic_iff (unmarshal : Bytes → Option Event) (line : Bytes)
    (err : Option IOError) :
    readEventOn unmarshal line err = Outcome.panic ↔
      (line = sseData ∧ (err = none ∨ err = some IOError.EOF)) := by
  constructor
  · intro h
    unfold readEventOn at h
    split_ifs at h with hcond hlen
    have herr : err = none ∨ err = some IOError.EOF := by
      by_contra hc
      push_neg at hc
      exact hcond hc
    refine ⟨?_, herr⟩
    rcases Split_cases line sseDelimiter (by simp [sseDelimiter]) with
      ⟨_, hs⟩ | ⟨m, second, more, _, hs⟩
    · simp only [hs] at h
      split_ifs at h with hk hc
      exact Compare_eq_zero _ _ (by simpa using hc)
    · simp only [hs] at h
      split_ifs at h with hk hc
      revert h
      split <;> simp
  · rintro ⟨hl, herr⟩
    subst hl
    rcases herr with h | h <;> subst h <;> rfl

theorem readEventOn_newline_ne_panic (unmarshal : Bytes → Option Event) (b : Bytes)
    (err : Option IOError) :
    readEventOn unmarshal (b ++ ['\n']) err ≠ Outcome.panic := by
  intro h
  have hl := ((readEventOn_panic_iff unmarshal _ err).mp h).1
  have hr := congrArg List.reverse hl
  simp [sseData] at hr

theorem Split_head_of_first_piece (pre rest : Bytes) (hpre : ¬ sseDelimiter <:+: pre)
    (hrest : rest = [] ∨ sseDelimiter <+: rest) :
    ∃ more, Split (pre ++ rest) sseDelimiter = pre :: more := by
  have hsep : sseDelimiter ≠ [] := by simp [sseDelimiter]
  rcases hrest with h | ⟨t, ht⟩
  · subst h
    rw [List.append_nil]
    rcases Split_cases pre sseDelimiter hsep with ⟨_, hs⟩ | ⟨m, _, _, hidx, _⟩
    · exact ⟨[], hs⟩
    · rw [(Index_eq_none_iff _ _).mpr hpre] at hidx
      exact absurd hidx (by simp)
  · subst ht
    have hidx := Index_delimiter_append pre t hpre
    rcases Split_cases (pre ++ (sseDelimiter ++ t)) sseDelimiter hsep with
      ⟨hnone, _⟩ | ⟨m, second, more, hm, hs⟩
    · rw [hidx] at hnone
      exact absurd hnone (by simp)
    · rw [hidx] at hm
      have hm' : pre.length = m := by simpa using hm
      subst hm'
      rw [List.take_left] at hs
      exact ⟨second :: more, hs⟩

/-- C5, as the code has it.  When the part of the line before the first `: `
(the whole line when it has none) contains `:keepalive`, and the read did
not fail, `readEvent` returns the map with the one key `event` and the
value `keepalive`, and no error, whatever follows and whatever the decoder. -/
theorem readEvent_keepalive_in_first_piece (unmarshal : Bytes → Option Event)
    (pre rest : Bytes) (err : Option IOError)
    (herr : err = none ∨ err = some IOError.EOF)
    (hkeep : sseKeepAlive <:+: pre) (hpre : ¬ sseDelimiter <:+: pre)
    (hrest : rest = [] ∨ sseDelimiter <+: rest) :
    readEventOn unmarshal (pre ++ rest) err
      = Outcome.ret (some [("event", JSONValue.string "keepalive")], none) := by
  have hcond : ¬ (err ≠ none ∧ err ≠ some IOError.EOF) := by
    rcases herr with h | h <;> simp [h]
  have hlen : ¬ (pre ++ rest).length < 2 := by
    have := hkeep.length_le
    simp only [sseKeepAlive, List.length_cons, List.length_nil] at this
    rw [List.length_append]
    omega
  obtain ⟨more, hs⟩ := Split_head_of_first_piece pre rest hpre hrest
  have hc : Contains pre sseKeepAlive = true := (Contains_iff_occurs _ _).mpr hkeep
  unfold readEventOn
  rw [if_neg hcond, if_neg hlen]
  simp only [hs, hc, if_true]
  rfl

theorem readEvent_keepalive_in_first_piece_witness :
    readEventOn Unmarshal (":keepalive".toList ++ ": \x7b\"k\": 1\x7d\n".toList) none
      = Outcome.ret (some [("event", JSONValue.string "keepalive")], none) :=
  readEvent_keepalive_in_first_piece Unmarshal ":keepalive".toList ": \x7b\"k\": 1\x7d\n".toList none
    (Or.inl rfl) ⟨[], [], rfl⟩ ((Index_eq_none_iff _ _).mp rfl)
    (Or.inr ⟨"\x7b\"k\": 1\x7d\n".toList, rfl⟩)

/-- C5, as stated, fails: the line `event: :keepalive` contains the bytes
`:keepalive`, but behind the first `: `; its first piece is `event`, and
`readEvent` returns no event. -/
theorem readEvent_keepalive_behind_delimiter :
    Contains "event: :keepalive\n".toList sseKeepAlive = true ∧
    Split "event: :keepalive\n".toList sseDelimiter
      = ["event".toList, ":keepalive\n".toList] ∧
    (readEvent Unmarshal ⟨"event: :keepalive\n".toList, IOError.EOF⟩).1
      = Outcome.ret (none, none) :=
  ⟨rfl, rfl, rfl⟩

/-! ## Properties of Do -/

theorem statusSends_append (xs ys : List Action) :
    statusSends (xs ++ ys) = statusSends xs ++ statusSends ys := by
  induction xs with
  | nil => rfl
  | cons a as ih => cases a <;> simp [statusSends, ih]

theorem launches_append (xs ys : List Action) :
    launches (xs ++ ys) = launches xs ++ launches ys := by
  induction xs with
  | nil => rfl
  | cons a as ih => cases a <;> simp [launches, ih]

theorem stoppedSends_append (xs ys : List Action) :
    stoppedSends (xs ++ ys) = stoppedSends xs + stoppedSends ys := by
  induction xs with
  | nil => simp [stoppedSends]
  | cons a as ih =>
    cases a <;> simp [stoppedSends, ih]
    omega

theorem launches_map_launch (events : List Event) :
    launches (events.map Action.launch) = events := by
  induction events with
  | nil => rfl
  | cons e es ih => simp [launches, ih]

/-- Inside the loop nothing is sent on the stopped channel, and a status is
sent only on the read-error branch, which ends parked. -/
theorem streamLoop_sends (unmarshal : Bytes → Option Event) (shutdownAt : Option Nat)
    (fuel i : Nat) (reader : Reader) :
    (∀ a ∈ (streamLoop unmarshal shutdownAt fuel i reader).trace, a ≠ Action.sendStopped) ∧
    (((streamLoop unmarshal shutdownAt fuel i reader).exit = Exit.blocked ∧
        statusSends (streamLoop unmarshal shutdownAt fuel i reader).trace
          = [ErrorReadingStream]) ∨
     ((streamLoop unmarshal shutdownAt fuel i reader).exit ≠ Exit.blocked ∧
        statusSends (streamLoop unmarshal shutdownAt fuel i reader).trace = [])) := by
  induction fuel generalizing i reader with
  | zero => simp [streamLoop, statusSends]
  | succ n ih =>
    unfold streamLoop
    split_ifs
    · simp [statusSends]
    · split
      · simp [statusSends]
      · simp [Shutdown, statusSends]
      · rename_i event reader' _
        obtain ⟨h1, h2⟩ := ih (i + 1) reader'
        refine ⟨?_, ?_⟩
        · intro a ha
          simp only [List.mem_cons] at ha
          rcases ha with ha | ha
          · subst ha
            simp
          · exact h1 a ha
        · simpa [statusSends] using h2
      · exact ih (i + 1) _

/-- The shape of every run of `Do`: a part without a send on the stopped
channel, followed by that send exactly when the run returned or panicked;
the part holds one status, or `OK` and `ErrorReadingStream` when the run
is parked. -/
theorem Do_shape (unmarshal : Bytes → Option Event) (env : Env) (fuel : Nat) :
    ∃ body : List Action,
      (∀ a ∈ body, a ≠ Action.sendStopped) ∧
      (((Do unmarshal env fuel).exit = Exit.blocked ∧
          statusSends body = [OK, ErrorReadingStream]) ∨
       ((Do unmarshal env fuel).exit ≠ Exit.blocked ∧ ∃ code, statusSends body = [code])) ∧
      ((((Do unmarshal env fuel).exit = Exit.returned ∨
          (Do unmarshal env fuel).exit = Exit.panicked) ∧
          (Do unmarshal env fuel).trace = body ++ [Action.sendStopped]) ∨
       (((Do unmarshal env fuel).exit = Exit.blocked ∨
          (Do unmarshal env fuel).exit = Exit.running) ∧
          (Do unmarshal env fuel).trace = body)) := by
  unfold Do
  split_ifs with h1 h2 h3
  · exact ⟨[Action.sendStatus ErrorOnClientCreation], by simp, by simp [withDeferred, statusSends],
      by simp [withDeferred]⟩
  · exact ⟨[Action.sendStatus ErrorRequestPerformed], by simp, by simp [withDeferred, statusSends],
      by simp [withDeferred]⟩
  · exact ⟨[Action.sendStatus ErrorConnectToStreaming], by simp,
      by simp [withDeferred, statusSends], by simp [withDeferred]⟩
  · obtain ⟨hfree, hstat⟩ := streamLoop_sends unmarshal env.shutdownAt fuel 0 env.body
    generalize streamLoop unmarshal env.shutdownAt fuel 0 env.body = run at hfree hstat
    obtain ⟨trace, exit⟩ := run
    simp only at hfree hstat
    cases exit with
    | returned =>
      refine ⟨Action.sendStatus OK :: (trace ++ [Action.closeBody]), ?_, ?_, ?_⟩
      · intro a ha
        simp only [List.mem_cons, List.mem_append, List.mem_singleton, List.not_mem_nil,
          or_false] at ha
        rcases ha with ha | ha | ha
        · subst ha; simp
        · exact hfree a ha
        · subst ha; simp
      · right
        simp only [withDeferred, statusSends, statusSends_append]
        rcases hstat with ⟨h, _⟩ | ⟨_, h⟩
        · exact absurd h (by simp)
        · simp [h]
      · left
        simp [withDeferred]
    | panicked =>
      refine ⟨Action.sendStatus OK :: (trace ++ [Action.closeBody]), ?_, ?_, ?_⟩
      · intro a ha
        simp only [List.mem_cons, List.mem_append, List.mem_singleton, List.not_mem_nil,
          or_false] at ha
        rcases ha with ha | ha | ha
        · subst ha; simp
        · exact hfree a ha
        · subst ha; simp
      · right
        simp only [withDeferred, statusSends, statusSends_append]
        rcases hstat with ⟨h, _⟩ | ⟨_, h⟩
        · exact absurd h (by simp)
        · simp [h]
      · left
        simp [withDeferred]
    | blocked =>
      refine ⟨Action.sendStatus OK :: trace, ?_, ?_, ?_⟩
      · intro a ha
        simp only [List.mem_cons] at ha
        rcases ha with ha | ha
        · subst ha; simp
        · exact hfree a ha
      · left
        simp only [withDeferred, statusSends]
        rcases hstat with ⟨_, h⟩ | ⟨h, _⟩
        · simp [h]
        · exact absurd rfl h
      · right
        simp [withDeferred]
    | running =>
      refine ⟨Action.sendStatus OK :: trace, ?_, ?_, ?_⟩
      · intro a ha
        simp only [List.mem_cons] at ha
        rcases ha with ha | ha
        · subst ha; simp
        · exact hfree a ha
      · right
        simp only [withDeferred, statusSends]
        rcases hstat with ⟨h, _⟩ | ⟨_, h⟩
        · exact absurd h (by simp)
        · simp [h]
      · right
        simp [withDeferred]

theorem nothing_after_last_sendStopped (body pre post : List Action)
    (hfree : ∀ a ∈ body, a ≠ Action.sendStopped)
    (h : body ++ [Action.sendStopped] = pre ++ Action.sendStopped :: post) : post = [] := by
  induction body generalizing pre with
  | nil =>
    cases pre with
    | nil => simpa using h.symm
    | cons p ps =>
      simp only [List.nil_append, List.cons_append, List.cons.injEq] at h
      have := congrArg List.length h.2
      simp only [List.length_nil, List.length_append, List.length_cons] at this
      omega
  | cons b bs ih =>
    cases pre with
    | nil =>
      simp only [List.cons_append, List.nil_append, List.cons.injEq] at h
      exact absurd h.1 (hfree b (List.mem_cons_self _ _))
    | cons p ps =>
      simp only [List.cons_append, List.cons.injEq] at h
      exact ih ps (fun a ha => hfree a (List.mem_cons_of_mem _ ha)) h.2

/-- C2.  On the read-error path `Do` never sends on the stopped channel.
With status 200 and a body whose first read fails with an error other than
`io.EOF`, `Do` sends `OK`, sends `ErrorReadingStream`, calls `Shutdown`,
which places a request on the shutdown channel and then waits for a value on
the stopped channel; that value is sent only by the deferred call of `Do`
itself, which runs when `Do` returns: the run is parked for good, for every
decoder, every error and however long it is observed. -/
theorem Do_read_error_never_sends_stopped (unmarshal : Bytes → Option Event) (msg : String)
    (fuel : Nat) :
    (Do unmarshal ⟨false, false, 200, ⟨[], IOError.other msg⟩, none⟩ (fuel + 1)).trace
      = [Action.sendStatus OK, Action.sendStatus ErrorReadingStream, Action.sendShutdown] ∧
    (Do unmarshal ⟨false, false, 200, ⟨[], IOError.other msg⟩, none⟩ (fuel + 1)).exit
      = Exit.blocked ∧
    stoppedSends
      (Do unmarshal ⟨false, false, 200, ⟨[], IOError.other msg⟩, none⟩ (fuel + 1)).trace = 0 :=
  ⟨rfl, rfl, rfl⟩

/-- C3, as the code has it.  Every run of `Do` sends at least one value on
the status channel and at most two: one value on every path but the
read-error path, and there `OK` followed by `ErrorReadingStream`; no status
is sent after a send on the stopped channel. -/
theorem Do_status_sends (unmarshal : Bytes → Option Event) (env : Env) (fuel : Nat) :
    (((Do unmarshal env fuel).exit = Exit.blocked ∧
        statusSends (Do unmarshal env fuel).trace = [OK, ErrorReadingStream]) ∨
     ((Do unmarshal env fuel).exit ≠ Exit.blocked ∧
        ∃ code, statusSends (Do unmarshal env fuel).trace = [code])) ∧
    (∀ pre post : List Action,
      (Do unmarshal env fuel).trace = pre ++ Action.sendStopped :: post →
        statusSends post = []) := by
  obtain ⟨body, hfree, hstat, hshape⟩ := Do_shape unmarshal env fuel
  rcases hshape with ⟨hexit, htrace⟩ | ⟨hexit, htrace⟩
  · refine ⟨?_, ?_⟩
    · rw [htrace, statusSends_append]
      simpa [statusSends] using hstat
    · intro pre post hpost
      rw [htrace] at hpost
      rw [nothing_after_last_sendStopped body pre post hfree hpost]
      rfl
  · refine ⟨?_, ?_⟩
    · rw [htrace]
      exact hstat
    · intro pre post hpost
      rw [htrace] at hpost
      exact absurd rfl (hfree Action.sendStopped (by rw [hpost]; simp))

/-- C3, as stated, fails: when the first read of the body fails, two values
are sent on the status channel, `OK` and then `ErrorReadingStream`. -/
theorem Do_sends_two_statuses_on_read_error :
    statusSends
      (Do Unmarshal ⟨false, false, 200, ⟨[], IOError.other "connection reset"⟩, none⟩ 1).trace
      = [0, 4] ∧
    (statusSends
      (Do Unmarshal ⟨false, false, 200, ⟨[], IOError.other "connection reset"⟩,
        none⟩ 1).trace).length = 2 :=
  ⟨rfl, rfl⟩

/-- C9.  Two runs that launch a callback and never wait for it.  A body
`data: {}` followed by a read error: the callback is launched, then `Do`
sends `ErrorReadingStream` and parks inside `Shutdown`; the wait of line 173
is never reached.  A body `data: {}` followed by the bytes `data` and the
end of the stream: the callback is launched, the next `readEvent` panics,
and the deferred calls close the body and send on the stopped channel with
no wait before. -/
theorem Do_leaves_callbacks_unawaited :
    (Do Unmarshal ⟨false, false, 200,
        ⟨"data: \x7b\x7d\n".toList, IOError.other "connection reset"⟩, none⟩ 2)
      = ⟨[Action.sendStatus OK, Action.launch [], Action.sendStatus ErrorReadingStream,
          Action.sendShutdown], Exit.blocked⟩ ∧
    (Do Unmarshal ⟨false, false, 200, ⟨"data: \x7b\x7d\ndata".toList, IOError.EOF⟩, none⟩ 2)
      = ⟨[Action.sendStatus OK, Action.launch [], Action.closeBody, Action.sendStopped],
          Exit.panicked⟩ ∧
    waits (Do Unmarshal ⟨false, false, 200,
        ⟨"data: \x7b\x7d\n".toList, IOError.other "connection reset"⟩, none⟩ 2).trace = 0 ∧
    waits (Do Unmarshal ⟨false, false, 200,
        ⟨"data: \x7b\x7d\ndata".toList, IOError.EOF⟩, none⟩ 2).trace = 0 :=
  ⟨rfl, rfl, rfl, rfl⟩

/-! ### Reading whole lines -/

theorem cutAfter_line (b rest : Bytes) (hb : '\n' ∉ b) :
    cutAfter '\n' (b ++ ['\n'] ++ rest) = some (b ++ ['\n'], rest) := by
  induction b with
  | nil => simp [cutAfter]
  | cons c cs ih =>
    have hc : c ≠ '\n' := fun h => hb (by simp [h])
    have hcs : '\n' ∉ cs := fun h => hb (List.mem_cons_of_mem _ h)
    show cutAfter '\n' (c :: (cs ++ ['\n'] ++ rest)) = some (c :: (cs ++ ['\n']), rest)
    rw [cutAfter, if_neg hc, ih hcs]
    rfl

theorem readEvent_line (unmarshal : Bytes → Option Event) (b rest : Bytes)
    (failure : IOError) (hb : '\n' ∉ b) :
    readEvent unmarshal ⟨b ++ ['\n'] ++ rest, failure⟩
      = (readEventOn unmarshal (b ++ ['\n']) none, ⟨rest, failure⟩) := by
  simp only [readEvent, ReadBytes, cutAfter_line b rest hb]

/-- A line that ends in a newline is decoded to an event or to none: no
panic, no error. -/
theorem readEventOn_line (unmarshal : Bytes → Option Event) (b : Bytes) :
    readEventOn unmarshal (b ++ ['\n']) none
      = Outcome.ret (decoded unmarshal (b ++ ['\n']), none) := by
  have hp := readEventOn_newline_ne_panic unmarshal b none
  have he := readEventOn_no_read_error unmarshal (b ++ ['\n']) none (Or.inl rfl)
  unfold decoded
  cases h : readEventOn unmarshal (b ++ ['\n']) none with
  | panic => exact absurd h hp
  | ret a =>
    obtain ⟨ev, err⟩ := a
    cases err with
    | none => rfl
    | some e => exact absurd h (he ev e)

theorem streamLoop_step_line (unmarshal : Bytes → Option Event) (shutdownAt : Option Nat)
    (fuel i : Nat) (b rest : Bytes) (failure : IOError) (hb : '\n' ∉ b)
    (hshut : shutdownPending shutdownAt i = false) :
    streamLoop unmarshal shutdownAt (fuel + 1) i ⟨b ++ ['\n'] ++ rest, failure⟩
      = ⟨((decoded unmarshal (b ++ ['\n'])).toList.map Action.launch) ++
          (streamLoop unmarshal shutdownAt fuel (i + 1) ⟨rest, failure⟩).trace,
         (streamLoop unmarshal shutdownAt fuel (i + 1) ⟨rest, failure⟩).exit⟩ := by
  conv_lhs => unfold streamLoop
  rw [hshut, readEvent_line unmarshal b rest failure hb, readEventOn_line]
  cases decoded unmarshal (b ++ ['\n']) with
  | none => simp
  | some ev => simp

/-- At the end of the stream every read is empty: the loop goes on until a
shutdown request is found. -/
theorem streamLoop_exhausted_shutdown (unmarshal : Bytes → Option Event) (k fuel i : Nat)
    (hik : i ≤ k) (hfuel : k < i + fuel) :
    streamLoop unmarshal (some k) fuel i ⟨[], IOError.EOF⟩
      = ⟨[Action.recvShutdown, Action.waitGoroutines], Exit.returned⟩ := by
  induction fuel generalizing i with
  | zero => omega
  | succ n ih =>
    unfold streamLoop
    by_cases hk : k ≤ i
    · simp [shutdownPending, hk]
    · have hp : shutdownPending (some k) i = false := by simp [shutdownPending, hk]
      rw [hp]
      have hread : readEvent unmarshal ⟨[], IOError.EOF⟩
          = (Outcome.ret (none, none), ⟨[], IOError.EOF⟩) := rfl
      rw [hread]
      simp only [Bool.false_eq_true, if_false]
      exact ih (i + 1) (by omega) (by omega)

theorem streamLoop_exhausted_forever (unmarshal : Bytes → Option Event) (fuel i : Nat) :
    streamLoop unmarshal none fuel i ⟨[], IOError.EOF⟩ = ⟨[], Exit.running⟩ := by
  induction fuel generalizing i with
  | zero => rfl
  | succ n ih =>
    unfold streamLoop
    have hread : readEvent unmarshal ⟨[], IOError.EOF⟩
        = (Outcome.ret (none, none), ⟨[], IOError.EOF⟩) := rfl
    rw [hread]
    simp only [shutdownPending, Bool.false_eq_true, if_false]
    exact ih (i + 1)

theorem streamLoop_lines (unmarshal : Bytes → Option Event) (shutdownAt : Option Nat)
    (lines : List Bytes) (rest : Bytes) (failure : IOError) (fuel i : Nat)
    (hlines : ∀ l ∈ lines, ∃ b, l = b ++ ['\n'] ∧ '\n' ∉ b)
    (hshut : ∀ j, i ≤ j → j < i + lines.length → shutdownPending shutdownAt j = false) :
    streamLoop unmarshal shutdownAt (lines.length + fuel) i ⟨lines.flatten ++ rest, failure⟩
      = ⟨(lines.filterMap (decoded unmarshal)).map Action.launch ++
          (streamLoop unmarshal shutdownAt fuel (i + lines.length) ⟨rest, failure⟩).trace,
         (streamLoop unmarshal shutdownAt fuel (i + lines.length) ⟨rest, failure⟩).exit⟩ := by
  induction lines generalizing i with
  | nil => simp
  | cons l ls ih =>
    obtain ⟨b, hl, hb⟩ := hlines l (List.mem_cons_self _ _)
    subst hl
    have hls : ∀ l ∈ ls, ∃ b, l = b ++ ['\n'] ∧ '\n' ∉ b :=
      fun l hl => hlines l (List.mem_cons_of_mem _ hl)
    have hfuel : ((b ++ ['\n']) :: ls).length + fuel = (ls.length + fuel) + 1 := by
      simp only [List.length_cons]
      omega
    have hbody : ((b ++ ['\n']) :: ls).flatten ++ rest
        = b ++ ['\n'] ++ (ls.flatten ++ rest) := by
      simp [List.flatten_cons, List.append_assoc]
    have hidx : i + ((b ++ ['\n']) :: ls).length = i + 1 + ls.length := by
      simp only [List.length_cons]
      omega
    rw [hfuel, hbody, hidx,
      streamLoop_step_line unmarshal shutdownAt _ i b _ failure hb
        (hshut i (Nat.le_refl i) (by simp only [List.length_cons]; omega)),
      ih (i + 1) hls
        (fun j h1 h2 => hshut j (by omega) (by simp only [List.length_cons]; omega))]
    cases hd : decoded unmarshal (b ++ ['\n']) with
    | none => simp [List.filterMap_cons, hd]
    | some ev => simp [List.filterMap_cons, hd]

/-- The run over a body that starts with whole lines, when the shutdown
request is found right behind them, or later and the body ends there. -/
theorem Do_lines_then_shutdown (unmarshal : Bytes → Option Event) (lines : List Bytes)
    (rest : Bytes) (failure : IOError) (k fuel : Nat)
    (hlines : ∀ l ∈ lines, ∃ b, l = b ++ ['\n'] ∧ '\n' ∉ b)
    (hshut : k = lines.length ∨ (rest = [] ∧ failure = IOError.EOF ∧ lines.length ≤ k))
    (hfuel : k < fuel) :
    Do unmarshal ⟨false, false, 200, ⟨lines.flatten ++ rest, failure⟩, some k⟩ fuel
      = ⟨Action.sendStatus OK :: ((lines.filterMap (decoded unmarshal)).map Action.launch ++
          [Action.recvShutdown, Action.waitGoroutines, Action.closeBody, Action.sendStopped]),
         Exit.returned⟩ := by
  have hk : lines.length ≤ k := by
    rcases hshut with h | ⟨_, _, h⟩
    · omega
    · exact h
  obtain ⟨fuel', hf⟩ : ∃ fuel', fuel = lines.length + (fuel' + 1) :=
    ⟨fuel - lines.length - 1, by omega⟩
  subst hf
  have hloop : streamLoop unmarshal (some k) (fuel' + 1) (0 + lines.length) ⟨rest, failure⟩
      = ⟨[Action.recvShutdown, Action.waitGoroutines], Exit.returned⟩ := by
    rcases hshut with h | ⟨h1, h2, _⟩
    · subst h
      unfold streamLoop
      simp [shutdownPending]
    · subst h1
      subst h2
      exact streamLoop_exhausted_shutdown unmarshal k (fuel' + 1) (0 + lines.length)
        (by omega) (by omega)
  have hrun := streamLoop_lines unmarshal (some k) lines rest failure (fuel' + 1) 0 hlines
    (fun j _ h2 => by
      have : ¬ k ≤ j := by omega
      simp [shutdownPending, this])
  rw [hloop] at hrun
  simp only [Do, Bool.false_eq_true, if_false, ne_eq, not_true_eq_false, hrun, withDeferred]
  simp

theorem filterMap_length_of_isSome {α β : Type} (f : α → Option β) (xs : List α)
    (h : ∀ x ∈ xs, (f x).isSome = true) : (xs.filterMap f).length = xs.length := by
  induction xs with
  | nil => rfl
  | cons x xs ih =>
    obtain ⟨y, hy⟩ := Option.isSome_iff_exists.mp (h x (List.mem_cons_self _ _))
    rw [List.filterMap_cons, hy]
    simp [ih (fun z hz => h z (List.mem_cons_of_mem _ hz))]

theorem stoppedSends_eq_zero (trace : List Action)
    (h : ∀ a ∈ trace, a ≠ Action.sendStopped) : stoppedSends trace = 0 := by
  induction trace with
  | nil => rfl
  | cons a as ih =>
    have hrest := ih (fun b hb => h b (List.mem_cons_of_mem _ hb))
    have ha := h a (List.mem_cons_self _ _)
    cases a <;> simp_all [stoppedSends]

/-- C8.  For a body that starts with the lines `lines`, each ended by its
newline, and a shutdown request found right behind them (or later, when the
body ends behind them), `Do` launches one callback for each line that
`readEvent` decodes to an event, with that event, in the order of the lines,
and none for a line that decodes to no event; when every line decodes to an
event there are as many launches as lines. -/
theorem Do_launches_one_callback_per_event (unmarshal : Bytes → Option Event)
    (lines : List Bytes) (rest : Bytes) (failure : IOError) (k fuel : Nat)
    (hlines : ∀ l ∈ lines, ∃ b, l = b ++ ['\n'] ∧ '\n' ∉ b)
    (hshut : k = lines.length ∨ (rest = [] ∧ failure = IOError.EOF ∧ lines.length ≤ k))
    (hfuel : k < fuel) :
    launches
        (Do unmarshal ⟨false, false, 200, ⟨lines.flatten ++ rest, failure⟩, some k⟩ fuel).trace
      = lines.filterMap (decoded unmarshal) ∧
    ((∀ l ∈ lines, ∃ event, readEventOn unmarshal l none = Outcome.ret (some event, none)) →
      (launches
        (Do unmarshal ⟨false, false, 200, ⟨lines.flatten ++ rest, failure⟩,
          some k⟩ fuel).trace).length = lines.length) := by
  rw [Do_lines_then_shutdown unmarshal lines rest failure k fuel hlines hshut hfuel]
  have hl : launches (Action.sendStatus OK ::
      ((lines.filterMap (decoded unmarshal)).map Action.launch ++
        [Action.recvShutdown, Action.waitGoroutines, Action.closeBody, Action.sendStopped]))
      = lines.filterMap (decoded unmarshal) := by
    simp [launches, launches_append, launches_map_launch]
  refine ⟨hl, ?_⟩
  intro hall
  simp only [hl]
  apply filterMap_length_of_isSome
  intro l hmem
  obtain ⟨event, hev⟩ := hall l hmem
  simp [decoded, hev]

theorem Do_launches_one_callback_per_event_witness :
    launches
        (Do Unmarshal ⟨false, false, 200,
          ⟨["data: \x7b\"k\":\"v\"\x7d\n".toList, "id: 7\n".toList, ":keepalive\n".toList].flatten ++ [],
            IOError.EOF⟩, some 5⟩ 6).trace
      = ["data: \x7b\"k\":\"v\"\x7d\n".toList, "id: 7\n".toList, ":keepalive\n".toList].filterMap
          (decoded Unmarshal) ∧
    ["data: \x7b\"k\":\"v\"\x7d\n".toList, "id: 7\n".toList, ":keepalive\n".toList].filterMap
          (decoded Unmarshal)
      = [[("k", JSONValue.string "v")], [("event", JSONValue.string "keepalive")]] :=
  ⟨(Do_launches_one_callback_per_event Unmarshal
      ["data: \x7b\"k\":\"v\"\x7d\n".toList, "id: 7\n".toList, ":keepalive\n".toList] []
      IOError.EOF 5 6
      (by
        intro l hl
        simp only [List.mem_cons, List.mem_singleton, List.not_mem_nil, or_false] at hl
        rcases hl with h | h | h
        · exact ⟨"data: \x7b\"k\":\"v\"\x7d".toList, h, by decide⟩
        · exact ⟨"id: 7".toList, h, by decide⟩
        · exact ⟨":keepalive".toList, h, by decide⟩)
      (Or.inr ⟨rfl, rfl, by decide⟩) (by decide)).1, rfl⟩

theorem cutAfter_none (last : Bytes) (hlast : '\n' ∉ last) : cutAfter '\n' last = none := by
  induction last with
  | nil => rfl
  | cons c cs ih =>
    have hc : c ≠ '\n' := fun h => hlast (by simp [h])
    have hcs : '\n' ∉ cs := fun h => hlast (List.mem_cons_of_mem _ h)
    rw [cutAfter, if_neg hc, ih hcs]
    rfl

/-- The read of what is left behind the last newline: the bytes come with
`io.EOF`, and unless they are the bare `data` they give an event or none,
with no error. -/
theorem readEvent_last (unmarshal : Bytes → Option Event) (last : Bytes)
    (hlast : '\n' ∉ last) (hdata : last ≠ sseData) :
    ∃ ev : Option Event,
      readEvent unmarshal ⟨last, IOError.EOF⟩ = (Outcome.ret (ev, none), ⟨[], IOError.EOF⟩) := by
  have hread : readEvent unmarshal ⟨last, IOError.EOF⟩
      = (readEventOn unmarshal last (some IOError.EOF), ⟨[], IOError.EOF⟩) := by
    simp only [readEvent, ReadBytes, cutAfter_none last hlast]
  have hp : readEventOn unmarshal last (some IOError.EOF) ≠ Outcome.panic :=
    fun h => hdata ((readEventOn_panic_iff unmarshal _ _).mp h).1
  have he := readEventOn_no_read_error unmarshal last (some IOError.EOF) (Or.inr rfl)
  cases h : readEventOn unmarshal last (some IOError.EOF) with
  | panic => exact absurd h hp
  | ret a =>
    obtain ⟨ev, err⟩ := a
    cases err with
    | none => exact ⟨ev, by rw [hread, h]⟩
    | some e => exact absurd h (he ev e)

theorem streamLoop_step_last (unmarshal : Bytes → Option Event) (shutdownAt : Option Nat)
    (fuel i : Nat) (last : Bytes) (hlast : '\n' ∉ last) (hdata : last ≠ sseData)
    (hshut : shutdownPending shutdownAt i = false) :
    ∃ ev : Option Event,
      streamLoop unmarshal shutdownAt (fuel + 1) i ⟨last, IOError.EOF⟩
        = ⟨ev.toList.map Action.launch ++
            (streamLoop unmarshal shutdownAt fuel (i + 1) ⟨[], IOError.EOF⟩).trace,
           (streamLoop unmarshal shutdownAt fuel (i + 1) ⟨[], IOError.EOF⟩).exit⟩ := by
  obtain ⟨ev, hev⟩ := readEvent_last unmarshal last hlast hdata
  refine ⟨ev, ?_⟩
  conv_lhs => unfold streamLoop
  rw [hshut, hev]
  cases ev with
  | none => simp
  | some e => simp

/-- With no shutdown request the loop never ends on a body that ends. -/
theorem streamLoop_body_running (unmarshal : Bytes → Option Event) (lines : List Bytes)
    (last : Bytes) (fuel i : Nat)
    (hlines : ∀ l ∈ lines, ∃ b, l = b ++ ['\n'] ∧ '\n' ∉ b)
    (hlast : '\n' ∉ last) (hdata : last ≠ sseData) :
    (streamLoop unmarshal none fuel i ⟨lines.flatten ++ last, IOError.EOF⟩).exit
      = Exit.running := by
  induction lines generalizing fuel i with
  | nil =>
    rw [List.flatten_nil, List.nil_append]
    cases fuel with
    | zero => rfl
    | succ n =>
      obtain ⟨ev, hev⟩ := streamLoop_step_last unmarshal none n i last hlast hdata rfl
      rw [hev, streamLoop_exhausted_forever]
  | cons l ls ih =>
    cases fuel with
    | zero => rfl
    | succ n =>
      obtain ⟨b, hl, hb⟩ := hlines l (List.mem_cons_self _ _)
      subst hl
      have hbody : ((b ++ ['\n']) :: ls).flatten ++ last
          = b ++ ['\n'] ++ (ls.flatten ++ last) := by
        simp [List.flatten_cons]
      rw [hbody, streamLoop_step_line unmarshal none n i b _ IOError.EOF hb rfl]
      exact ih n (i + 1) (fun l hl => hlines l (List.mem_cons_of_mem _ hl))

/-- With a shutdown request found at iteration `k` the loop ends there, on a
body that ends, after the launches of the reads made before. -/
theorem streamLoop_body_shutdown (unmarshal : Bytes → Option Event) (lines : List Bytes)
    (last : Bytes) (k fuel i : Nat)
    (hlines : ∀ l ∈ lines, ∃ b, l = b ++ ['\n'] ∧ '\n' ∉ b)
    (hlast : '\n' ∉ last) (hdata : last ≠ sseData) (hik : i ≤ k) (hfuel : k < i + fuel) :
    ∃ events : List Event,
      streamLoop unmarshal (some k) fuel i ⟨lines.flatten ++ last, IOError.EOF⟩
        = ⟨events.map Action.launch ++ [Action.recvShutdown, Action.waitGoroutines],
           Exit.returned⟩ := by
  induction lines generalizing fuel i with
  | nil =>
    rw [List.flatten_nil, List.nil_append]
    cases fuel with
    | zero => omega
    | succ n =>
      by_cases hk : k ≤ i
      · refine ⟨[], ?_⟩
        unfold streamLoop
        simp [shutdownPending, hk]
      · have hp : shutdownPending (some k) i = false := by simp [shutdownPending, hk]
        obtain ⟨ev, hev⟩ := streamLoop_step_last unmarshal (some k) n i last hlast hdata hp
        refine ⟨ev.toList, ?_⟩
        rw [hev, streamLoop_exhausted_shutdown unmarshal k n (i + 1) (by omega) (by omega)]
  | cons l ls ih =>
    cases fuel with
    | zero => omega
    | succ n =>
      by_cases hk : k ≤ i
      · refine ⟨[], ?_⟩
        unfold streamLoop
        simp [shutdownPending, hk]
      · have hp : shutdownPending (some k) i = false := by simp [shutdownPending, hk]
        obtain ⟨b, hl, hb⟩ := hlines l (List.mem_cons_self _ _)
        subst hl
        have hbody : ((b ++ ['\n']) :: ls).flatten ++ last
            = b ++ ['\n'] ++ (ls.flatten ++ last) := by
          simp [List.flatten_cons]
        obtain ⟨events, hev⟩ := ih n (i + 1)
          (fun l hl => hlines l (List.mem_cons_of_mem _ hl)) (by omega) (by omega)
        refine ⟨(decoded unmarshal (b ++ ['\n'])).toList ++ events, ?_⟩
        rw [hbody, streamLoop_step_line unmarshal (some k) n i b _ IOError.EOF hb hp, hev]
        simp

/-- The run over a body given as its whole lines and what is left behind
the last newline: without a shutdown request it stays in the loop, with one
it ends at the iteration that finds it. -/
theorem Do_over_lines_and_last (unmarshal : Bytes → Option Event) (lines : List Bytes)
    (last : Bytes) (fuel : Nat)
    (hlines : ∀ l ∈ lines, ∃ b, l = b ++ ['\n'] ∧ '\n' ∉ b)
    (hlast : '\n' ∉ last) (hdata : last ≠ sseData) :
    ((Do unmarshal ⟨false, false, 200, ⟨lines.flatten ++ last, IOError.EOF⟩, none⟩ fuel).exit
        = Exit.running ∧
      stoppedSends
        (Do unmarshal ⟨false, false, 200, ⟨lines.flatten ++ last, IOError.EOF⟩,
          none⟩ fuel).trace = 0) ∧
    (∀ k, k < fuel →
      ∃ events : List Event,
        Do unmarshal ⟨false, false, 200, ⟨lines.flatten ++ last, IOError.EOF⟩, some k⟩ fuel
          = ⟨Action.sendStatus OK :: (events.map Action.launch ++
              [Action.recvShutdown, Action.waitGoroutines, Action.closeBody,
                Action.sendStopped]),
             Exit.returned⟩) := by
  refine ⟨?_, ?_⟩
  · have hexit := streamLoop_body_running unmarshal lines last fuel 0 hlines hlast hdata
    have hfree :=
      (streamLoop_sends unmarshal none fuel 0 ⟨lines.flatten ++ last, IOError.EOF⟩).1
    simp only [Do, Bool.false_eq_true, if_false, ne_eq, not_true_eq_false, withDeferred, hexit]
    refine ⟨trivial, ?_⟩
    simp only [stoppedSends]
    exact stoppedSends_eq_zero _ hfree
  · intro k hfuel
    obtain ⟨events, hev⟩ := streamLoop_body_shutdown unmarshal lines last k fuel 0 hlines
      hlast hdata (Nat.zero_le k) (by omega)
    refine ⟨events, ?_⟩
    simp only [Do, Bool.false_eq_true, if_false, ne_eq, not_true_eq_false, hev, withDeferred]
    simp

/-- Every byte sequence is a list of whole lines, each ended by its newline,
followed by what is left behind the last newline. -/
theorem body_lines (s : Bytes) :
    ∃ (lines : List Bytes) (last : Bytes), s = lines.flatten ++ last ∧
      (∀ l ∈ lines, ∃ b, l = b ++ ['\n'] ∧ '\n' ∉ b) ∧ '\n' ∉ last := by
  induction s with
  | nil => exact ⟨[], [], rfl, by simp, by simp⟩
  | cons c cs ih =>
    obtain ⟨lines, last, hs, hlines, hlast⟩ := ih
    by_cases hc : c = '\n'
    · refine ⟨['\n'] :: lines, last, by simp [hs, hc], ?_, hlast⟩
      intro l hl
      simp only [List.mem_cons] at hl
      rcases hl with h | h
      · exact ⟨[], by simp [h], by simp⟩
      · exact hlines l h
    · cases lines with
      | nil =>
        refine ⟨[], c :: last, by simp [hs], by simp, ?_⟩
        simp only [List.mem_cons, not_or]
        exact ⟨fun h => hc h.symm, hlast⟩
      | cons l ls =>
        obtain ⟨b, hl, hb⟩ := hlines l (List.mem_cons_self _ _)
        refine ⟨(c :: l) :: ls, last, by simp [hs], ?_, hlast⟩
        intro l2 hl2
        simp only [List.mem_cons] at hl2
        rcases hl2 with h | h
        · refine ⟨c :: b, by simp [h, hl], ?_⟩
          simp only [List.mem_cons, not_or]
          exact ⟨fun h2 => hc h2.symm, hb⟩
        · exact hlines l2 (List.mem_cons_of_mem _ h)

theorem flatten_lines_ends_in_newline (lines : List Bytes) (hne : lines ≠ [])
    (hlines : ∀ l ∈ lines, ∃ b, l = b ++ ['\n'] ∧ '\n' ∉ b) :
    ∃ front, lines.flatten = front ++ ['\n'] := by
  rcases List.eq_nil_or_concat lines with h | ⟨init, l, h⟩
  · exact absurd h hne
  · subst h
    obtain ⟨b, hl, _⟩ := hlines l (by simp)
    exact ⟨init.flatten ++ b, by simp [hl]⟩

/-- C10, as the code has it.  Take any body that ends without a read error
and whose last line is not the bare four bytes `data` without a newline.
`Do` does not leave the loop at the end of the stream: with no shutdown
request it is still in the loop after any number of iterations and has sent
nothing on the stopped channel.  With a shutdown request it leaves the loop
at the iteration that finds the request, waits for the callbacks it
launched, closes the body and sends on the stopped channel. -/
theorem Do_at_end_of_stream (unmarshal : Bytes → Option Event) (pending : Bytes)
    (fuel : Nat) (hbare : pending ≠ sseData) (hend : ¬ ('\n' :: sseData) <:+ pending) :
    ((Do unmarshal ⟨false, false, 200, ⟨pending, IOError.EOF⟩, none⟩ fuel).exit
        = Exit.running ∧
      stoppedSends
        (Do unmarshal ⟨false, false, 200, ⟨pending, IOError.EOF⟩, none⟩ fuel).trace = 0) ∧
    (∀ k, k < fuel →
      ∃ events : List Event,
        Do unmarshal ⟨false, false, 200, ⟨pending, IOError.EOF⟩, some k⟩ fuel
          = ⟨Action.sendStatus OK :: (events.map Action.launch ++
              [Action.recvShutdown, Action.waitGoroutines, Action.closeBody,
                Action.sendStopped]),
             Exit.returned⟩) := by
  obtain ⟨lines, last, hs, hlines, hlast⟩ := body_lines pending
  have hdata : last ≠ sseData := by
    intro h
    subst h
    by_cases hne : lines = []
    · subst hne
      exact hbare (by simpa using hs)
    · obtain ⟨front, hfront⟩ := flatten_lines_ends_in_newline lines hne hlines
      exact hend ⟨front, by rw [hs, hfront]; simp⟩
  rw [hs]
  exact Do_over_lines_and_last unmarshal lines last fuel hlines hlast hdata

theorem Do_at_end_of_stream_witness :
    ((Do Unmarshal ⟨false, false, 200,
          ⟨":keepalive\ndata: \x7b\x7d".toList, IOError.EOF⟩, none⟩ 1000).exit
        = Exit.running ∧
      stoppedSends
        (Do Unmarshal ⟨false, false, 200,
          ⟨":keepalive\ndata: \x7b\x7d".toList, IOError.EOF⟩, none⟩ 1000).trace = 0) :=
  (Do_at_end_of_stream Unmarshal ":keepalive\ndata: \x7b\x7d".toList 1000
    (by decide) (by decide)).1

/-- C10, as stated, fails: for an empty body, which ends at once, and no
shutdown request, `Do` is still in the loop after any number of iterations
and has sent nothing on the stopped channel. -/
theorem Do_spins_at_end_of_stream :
    NeverStops (Do Unmarshal ⟨false, false, 200, ⟨[], IOError.EOF⟩, none⟩) := by
  intro fuel
  simp only [Do, Bool.false_eq_true, if_false, ne_eq, not_true_eq_false,
    streamLoop_exhausted_forever, withDeferred]
  exact ⟨trivial, rfl⟩

/-! ### The paths that read nothing -/

/-- C11.  For a response whose status code is not 200, `Do` sends
`ErrorConnectToStreaming`, which is 3, on the status channel and then sends
on the stopped channel, and does nothing else: no callback is launched and
the run is the same whatever the body holds.  In any run, `OK` is among the
statuses sent only when the request and the transport succeeded with status
code 200. -/
theorem Do_status_not_200 (unmarshal : Bytes → Option Event) (env : Env) (fuel : Nat)
    (hreq : env.requestFails = false) (htr : env.transportFails = false)
    (hcode : env.statusCode ≠ 200) :
    Do unmarshal env fuel
      = ⟨[Action.sendStatus ErrorConnectToStreaming, Action.sendStopped], Exit.returned⟩ ∧
    ErrorConnectToStreaming = 3 ∧
    statusSends (Do unmarshal env fuel).trace = [3] ∧
    launches (Do unmarshal env fuel).trace = [] ∧
    (∀ body : Reader, Do unmarshal { env with body := body } fuel = Do unmarshal env fuel) ∧
    (∀ (env2 : Env) (fuel2 : Nat), OK ∈ statusSends (Do unmarshal env2 fuel2).trace →
      env2.requestFails = false ∧ env2.transportFails = false ∧ env2.statusCode = 200) := by
  have hrun : ∀ body : Reader, Do unmarshal { env with body := body } fuel
      = ⟨[Action.sendStatus ErrorConnectToStreaming, Action.sendStopped], Exit.returned⟩ := by
    intro body
    simp [Do, hreq, htr, hcode, withDeferred]
  have hdo : Do unmarshal env fuel
      = ⟨[Action.sendStatus ErrorConnectToStreaming, Action.sendStopped], Exit.returned⟩ :=
    hrun env.body
  refine ⟨hdo, rfl, ?_, ?_, ?_, ?_⟩
  · rw [hdo]
    rfl
  · rw [hdo]
    rfl
  · intro body
    rw [hrun body, hdo]
  · intro env2 fuel2 hok
    by_cases h1 : env2.requestFails = true
    · simp [Do, h1, withDeferred, statusSends, OK, ErrorOnClientCreation] at hok
    · by_cases h2 : env2.transportFails = true
      · simp [Do, h1, h2, withDeferred, statusSends, OK, ErrorRequestPerformed] at hok
      · by_cases h3 : env2.statusCode = 200
        · exact ⟨by simpa using h1, by simpa using h2, h3⟩
        · simp [Do, h1, h2, h3, withDeferred, statusSends, OK, ErrorConnectToStreaming] at hok

theorem Do_status_not_200_witness :
    Do Unmarshal ⟨false, false, 503, ⟨"data: \x7b\x7d\n".toList, IOError.EOF⟩, none⟩ 10
      = ⟨[Action.sendStatus ErrorConnectToStreaming, Action.sendStopped], Exit.returned⟩ :=
  (Do_status_not_200 Unmarshal ⟨false, false, 503, ⟨"data: \x7b\x7d\n".toList, IOError.EOF⟩, none⟩
    10 rfl rfl (by decide)).1

/-- C12.  With status 200 and a shutdown request already waiting when the
loop starts, `Do` sends `OK`, takes the request, waits for its (zero)
callbacks, closes the body and sends on the stopped channel: one status,
then one stopped-report, no callback, and the same run whatever the body
holds and whatever the decoder. -/
theorem Do_shutdown_before_first_read (unmarshal : Bytes → Option Event) (body : Reader)
    (fuel : Nat) :
    Do unmarshal ⟨false, false, 200, body, some 0⟩ (fuel + 1)
      = ⟨[Action.sendStatus OK, Action.recvShutdown, Action.waitGoroutines, Action.closeBody,
          Action.sendStopped], Exit.returned⟩ ∧
    statusSends (Do unmarshal ⟨false, false, 200, body, some 0⟩ (fuel + 1)).trace = [0] ∧
    stoppedSends (Do unmarshal ⟨false, false, 200, body, some 0⟩ (fuel + 1)).trace = 1 ∧
    launches (Do unmarshal ⟨false, false, 200, body, some 0⟩ (fuel + 1)).trace = [] :=
  ⟨rfl, rfl, rfl, rfl⟩

/-! ## Properties of NewSSEClient and Shutdown -/

/-- C13.  `NewSSEClient` returns a client exactly when the status channel
and the stopped channel both have capacity at least 1; with capacity 0 on
either it returns an error; and the client it returns holds the given url
and channels and an empty shutdown channel of capacity 1. -/
theorem NewSSEClient_ok_iff (url : String) (status : Chan Int) (stopped : Chan Unit) :
    ((∃ client, NewSSEClient url status stopped = Except.ok client) ↔
      (1 ≤ status.cap ∧ 1 ≤ stopped.cap)) ∧
    ((status.cap = 0 ∨ stopped.cap = 0) →
      ∃ msg, NewSSEClient url status stopped = Except.error msg) ∧
    (∀ client, NewSSEClient url status stopped = Except.ok client →
      client = { url := url, status := status, stopped := stopped,
                 shutdown := { cap := 1, buf := [] } }) := by
  unfold NewSSEClient
  by_cases h1 : status.cap < 1
  · rw [if_pos h1]
    refine ⟨⟨?_, ?_⟩, ?_, ?_⟩
    · rintro ⟨c, hc⟩
      cases hc
    · rintro ⟨h, _⟩
      omega
    · intro _
      exact ⟨_, rfl⟩
    · intro c hc
      cases hc
  · rw [if_neg h1]
    by_cases h2 : stopped.cap < 1
    · rw [if_pos h2]
      refine ⟨⟨?_, ?_⟩, ?_, ?_⟩
      · rintro ⟨c, hc⟩
        cases hc
      · rintro ⟨_, h⟩
        omega
      · intro _
        exact ⟨_, rfl⟩
      · intro c hc
        cases hc
    · rw [if_neg h2]
      refine ⟨⟨?_, ?_⟩, ?_, ?_⟩
      · intro _
        exact ⟨by omega, by omega⟩
      · intro _
        exact ⟨_, rfl⟩
      · intro h
        omega
      · intro c hc
        cases hc
        rfl

/-- C14.  The select of `Shutdown` always takes one of its two branches:
with no request waiting it places one on the shutdown channel, with one
waiting it logs and leaves the channel as it is; after either, `Shutdown`
receives from the stopped channel, parked while that channel is empty.  A
shutdown channel that holds at most one request holds at most one
afterwards. -/
theorem Shutdown_request_step (pending stopped : Nat) :
    Shutdown ⟨0, 0⟩ = (⟨[Action.sendShutdown], Exit.blocked⟩, ⟨1, 0⟩) ∧
    Shutdown ⟨0, stopped + 1⟩
      = (⟨[Action.sendShutdown, Action.recvStopped], Exit.returned⟩, ⟨1, stopped⟩) ∧
    Shutdown ⟨pending + 1, 0⟩ = (⟨[Action.logUnexpected], Exit.blocked⟩, ⟨pending + 1, 0⟩) ∧
    Shutdown ⟨pending + 1, stopped + 1⟩
      = (⟨[Action.logUnexpected, Action.recvStopped], Exit.returned⟩,
          ⟨pending + 1, stopped⟩) ∧
    (∀ ch : Chans, ch.shutdown ≤ 1 → (Shutdown ch).2.shutdown ≤ 1 ∧
      1 ≤ (Shutdown ch).2.shutdown) := by
  refine ⟨rfl, ?_, ?_, ?_, ?_⟩
  · simp [Shutdown]
  · simp [Shutdown]
  · simp [Shutdown]
  · intro ch hch
    unfold Shutdown
    by_cases h : ch.shutdown < 1
    · simp only [h, if_true]
      split_ifs <;> simp <;> omega
    · simp only [h, if_false]
      split_ifs <;> simp <;> omega

/-! ## More on readEvent -/

/-- C17.  A line of fewer than 2 bytes read without an error other than
`io.EOF` gives no event and no error, whatever the decoder; and a reader at
the end of its stream gives such a line and stays at the end, so every
further call of `readEvent` gives no event and no error again. -/
theorem readEvent_short_line (unmarshal : Bytes → Option Event) (line : Bytes)
    (err : Option IOError) (hlen : line.length < 2)
    (herr : err = none ∨ err = some IOError.EOF) :
    readEventOn unmarshal line err = Outcome.ret (none, none) ∧
    readEvent unmarshal ⟨[], IOError.EOF⟩
      = (Outcome.ret (none, none), ⟨[], IOError.EOF⟩) := by
  have hcond : ¬ (err ≠ none ∧ err ≠ some IOError.EOF) := by
    rcases herr with h | h <;> simp [h]
  refine ⟨?_, rfl⟩
  unfold readEventOn
  rw [if_neg hcond, if_pos hlen]

theorem readEvent_short_line_witness :
    (readEventOn Unmarshal ['\n'] none = Outcome.ret (none, none) ∧
      readEvent Unmarshal ⟨[], IOError.EOF⟩
        = (Outcome.ret (none, none), ⟨[], IOError.EOF⟩)) ∧
    (readEventOn Unmarshal ['d'] (some IOError.EOF) = Outcome.ret (none, none) ∧
      readEvent Unmarshal ⟨[], IOError.EOF⟩
        = (Outcome.ret (none, none), ⟨[], IOError.EOF⟩)) :=
  ⟨readEvent_short_line Unmarshal ['\n'] none (by decide) (Or.inl rfl),
   readEvent_short_line Unmarshal ['d'] (some IOError.EOF) (by decide) (Or.inr rfl)⟩

/-- C18.  When the stream ends with the ten bytes `:keepalive` and no
newline, the read returns them together with `io.EOF`, and `readEvent`
returns the keep-alive event and no error, whatever the decoder. -/
theorem readEvent_keepalive_at_end_of_stream (unmarshal : Bytes → Option Event) :
    ReadBytes ⟨":keepalive".toList, IOError.EOF⟩ '\n'
      = (":keepalive".toList, some IOError.EOF, ⟨[], IOError.EOF⟩) ∧
    readEvent unmarshal ⟨":keepalive".toList, IOError.EOF⟩
      = (Outcome.ret (some [("event", JSONValue.string "keepalive")], none),
          ⟨[], IOError.EOF⟩) :=
  ⟨rfl, rfl⟩

/-- C16, as the code has it.  For a line read without an error other than
`io.EOF`, `readEvent` returns the keep-alive event for every decoder exactly
when the part of the line before the first `: ` (the whole line when it has
none) contains the bytes `:keepalive`, the token with its colon. -/
theorem readEvent_keepalive_iff (pre rest : Bytes) (err : Option IOError)
    (herr : err = none ∨ err = some IOError.EOF)
    (hpre : ¬ sseDelimiter <:+: pre) (hrest : rest = [] ∨ sseDelimiter <+: rest) :
    (∀ unmarshal : Bytes → Option Event,
      readEventOn unmarshal (pre ++ rest) err
        = Outcome.ret (some [("event", JSONValue.string "keepalive")], none)) ↔
      sseKeepAlive <:+: pre := by
  have hcond : ¬ (err ≠ none ∧ err ≠ some IOError.EOF) := by
    rcases herr with h | h <;> simp [h]
  obtain ⟨more, hs⟩ := Split_head_of_first_piece pre rest hpre hrest
  constructor
  · intro h
    by_contra hk
    have hc : Contains pre sseKeepAlive = false := by
      cases hcon : Contains pre sseKeepAlive with
      | false => rfl
      | true => exact absurd ((Contains_iff_occurs _ _).mp hcon) hk
    have h0 := h (fun _ => none)
    unfold readEventOn at h0
    rw [if_neg hcond] at h0
    by_cases hlen : (pre ++ rest).length < 2
    · rw [if_pos hlen] at h0
      simp at h0
    · rw [if_neg hlen] at h0
      simp only [hs, hc, Bool.false_eq_true, if_false] at h0
      revert h0
      split_ifs
      · simp
      · cases more with
        | nil => simp
        | cons second _ => simp [parseData]
  · intro hk
    intro unmarshal
    have hlen : ¬ (pre ++ rest).length < 2 := by
      have := hk.length_le
      simp only [sseKeepAlive, List.length_cons, List.length_nil] at this
      rw [List.length_append]
      omega
    have hc : Contains pre sseKeepAlive = true := (Contains_iff_occurs _ _).mpr hk
    unfold readEventOn
    rw [if_neg hcond, if_neg hlen]
    simp only [hs, hc, if_true]
    rfl

theorem readEvent_keepalive_iff_witness :
    readEventOn Unmarshal ("retry:keepalive".toList ++ ": \x7b\x7d\n".toList) none
      = Outcome.ret (some [("event", JSONValue.string "keepalive")], none) :=
  (readEvent_keepalive_iff "retry:keepalive".toList ": \x7b\x7d\n".toList none (Or.inl rfl)
    ((Index_eq_none_iff _ _).mp rfl) (Or.inr ⟨"\x7b\x7d\n".toList, rfl⟩)).mpr
    ⟨"retry".toList, [], rfl⟩ Unmarshal

/-- C16, as stated, fails: the line `keepalive` has no `: `, its field-name
part is the whole line and contains the token `keepalive`, but not
`:keepalive`, and `readEvent` returns no event. -/
theorem readEvent_keepalive_without_colon :
    Contains "keepalive\n".toList "keepalive".toList = true ∧
    Contains "keepalive\n".toList sseDelimiter = false ∧
    (readEvent Unmarshal ⟨"keepalive\n".toList, IOError.EOF⟩).1 = Outcome.ret (none, none) :=
  ⟨rfl, rfl, rfl⟩

/-! ### The payload of a data line -/

theorem genSplit_first_piece (fuel : Nat) (pre rest : Bytes)
    (hpre : ¬ sseDelimiter <:+: pre) (hrest : rest = [] ∨ sseDelimiter <+: rest) :
    ∃ more, genSplit sseDelimiter (fuel + 1) (pre ++ rest) = pre :: more := by
  rcases hrest with h | ⟨t, ht⟩
  · subst h
    rw [List.append_nil]
    exact ⟨[], by simp [genSplit, (Index_eq_none_iff _ _).mpr hpre]⟩
  · subst ht
    have hidx := Index_delimiter_append pre t hpre
    exact ⟨genSplit sseDelimiter fuel ((pre ++ (sseDelimiter ++ t)).drop
      (pre.length + sseDelimiter.length)), by simp [genSplit, hidx]⟩

theorem Split_data_line (seg tail : Bytes) (hseg : ¬ sseDelimiter <:+: seg)
    (htail : tail = [] ∨ sseDelimiter <+: tail) :
    ∃ more, Split (sseData ++ (sseDelimiter ++ (seg ++ tail))) sseDelimiter
      = sseData :: seg :: more := by
  have hdata : ¬ sseDelimiter <:+: sseData := (Index_eq_none_iff _ _).mp rfl
  have hidx := Index_delimiter_append sseData (seg ++ tail) hdata
  obtain ⟨n, hn⟩ : ∃ n, (sseData ++ (sseDelimiter ++ (seg ++ tail))).length = n + 2 :=
    ⟨4 + (seg ++ tail).length, by simp [sseData, sseDelimiter]; omega⟩
  obtain ⟨more, hmore⟩ := genSplit_first_piece n seg tail hseg htail
  refine ⟨more, ?_⟩
  unfold Split
  rw [hn]
  show genSplit sseDelimiter (n + 1 + 1) _ = _
  rw [genSplit, hidx]
  simp only [List.take_left]
  rw [List.drop_append, List.drop_left, hmore]

theorem dropWhile_keeps_from (p : Char → Bool) (x : Char) (hx : p x = false)
    (front back : Bytes) :
    ∃ kept, (front ++ x :: back).dropWhile p = kept ++ x :: back := by
  induction front with
  | nil => exact ⟨[], by simp [List.dropWhile, hx]⟩
  | cons a as ih =>
    by_cases ha : p a = true
    · obtain ⟨kept, hk⟩ := ih
      exact ⟨kept, by simp [List.dropWhile, ha, hk]⟩
    · exact ⟨a :: as, by simp [List.dropWhile, ha]⟩

theorem dropWhile_append_of_stop (p : Char → Bool) (x : Char) (hx : p x = false)
    (front back : Bytes) :
    (front ++ x :: back).dropWhile p = front.dropWhile p ++ x :: back := by
  induction front with
  | nil => simp [List.dropWhile, hx]
  | cons a as ih =>
    by_cases ha : p a = true
    · simp [List.dropWhile, ha, ih]
    · simp [List.dropWhile, ha]

/-- Trimming a slice cut before a `: ` gives fewer bytes than trimming the
slice with the `: ` and what follows it. -/
theorem TrimSpace_length_lt (seg t : Bytes) :
    (TrimSpace seg).length < (TrimSpace (seg ++ (sseDelimiter ++ t))).length := by
  have hcolon : isSpace ':' = false := by decide
  have hfront : (seg ++ (sseDelimiter ++ t)).dropWhile isSpace
      = seg.dropWhile isSpace ++ ':' :: (' ' :: t) :=
    dropWhile_append_of_stop isSpace ':' hcolon seg (' ' :: t)
  have hrev : (seg.dropWhile isSpace ++ ':' :: (' ' :: t)).reverse
      = (t.reverse ++ [' ']) ++ ':' :: (seg.dropWhile isSpace).reverse := by
    simp
  obtain ⟨kept, hkept⟩ := dropWhile_keeps_from isSpace ':' hcolon (t.reverse ++ [' '])
    (seg.dropWhile isSpace).reverse
  have hshort : ((seg.dropWhile isSpace).reverse.dropWhile isSpace).length
      ≤ (seg.dropWhile isSpace).reverse.length :=
    (List.dropWhile_suffix isSpace).length_le
  unfold TrimSpace
  rw [hfront, hrev, hkept]
  simp only [List.length_reverse, List.length_append, List.length_cons] at hshort ⊢
  omega

/-- C19.  For a line that is `data`, the delimiter `: `, a segment without
`: `, and then either nothing or a `: ` with anything behind it, read
without an error other than `io.EOF`, the bytes `readEvent` hands to the
decoder are the trimmed segment: the result is the map the decoder gives
for them, or no event when it fails.  The trimmed segment is the trimmed
payload exactly when nothing follows the segment, that is when the payload
has no `: `. -/
theorem readEvent_decodes_first_segment (unmarshal : Bytes → Option Event)
    (seg tail : Bytes) (err : Option IOError)
    (herr : err = none ∨ err = some IOError.EOF)
    (hseg : ¬ sseDelimiter <:+: seg) (htail : tail = [] ∨ sseDelimiter <+: tail) :
    readEventOn unmarshal (sseData ++ (sseDelimiter ++ (seg ++ tail))) err
      = (match unmarshal (TrimSpace seg) with
         | none => Outcome.ret (none, none)
         | some data => Outcome.ret (some data, none)) ∧
    (TrimSpace (seg ++ tail) = TrimSpace seg ↔ tail = []) := by
  have hcond : ¬ (err ≠ none ∧ err ≠ some IOError.EOF) := by
    rcases herr with h | h <;> simp [h]
  have hlen : ¬ (sseData ++ (sseDelimiter ++ (seg ++ tail))).length < 2 := by
    simp [sseData]
  obtain ⟨more, hs⟩ := Split_data_line seg tail hseg htail
  refine ⟨?_, ?_⟩
  · have hk : Contains sseData sseKeepAlive = false := rfl
    have hc : Compare sseData sseData = 0 := Compare_self _
    unfold readEventOn
    rw [if_neg hcond, if_neg hlen]
    simp only [hs, hk, hc, parseData, Bool.false_eq_true, if_false, ne_eq, not_true_eq_false]
    cases unmarshal (TrimSpace seg) <;> rfl
  · constructor
    · intro h
      rcases htail with ht | ⟨t, ht⟩
      · exact ht
      · subst ht
        have := TrimSpace_length_lt seg t
        rw [h] at this
        omega
    · intro h
      rw [h, List.append_nil]

theorem readEvent_decodes_first_segment_witness :
    readEventOn Unmarshal
        (sseData ++ (sseDelimiter ++ (" \x7b\x7d ".toList ++ ": \"v\"\x7d\n".toList))) none
      = (match Unmarshal (TrimSpace " \x7b\x7d ".toList) with
         | none => Outcome.ret (none, none)
         | some data => Outcome.ret (some data, none)) ∧
    TrimSpace " \x7b\x7d ".toList = "\x7b\x7d".toList :=
  ⟨(readEvent_decodes_first_segment Unmarshal " \x7b\x7d ".toList ": \"v\"\x7d\n".toList none
      (Or.inl rfl) ((Index_eq_none_iff _ _).mp rfl)
      (Or.inr ⟨"\"v\"\x7d\n".toList, rfl⟩)).1, by decide⟩

end SSE

namespace Common

/-! ## Properties of package `common` -/

theorem attemptLoop_all_fail (main : Nat → Option String) (remaining calls : Nat)
    (err : Option String) (hrem : 1 ≤ remaining)
    (hfail : ∀ j, calls ≤ j → j < calls + remaining → main j ≠ none) :
    (attemptLoop main remaining calls err).2 = calls + remaining ∧
    (attemptLoop main remaining calls err).1 ≠ none := by
  induction remaining generalizing calls err with
  | zero => omega
  | succ n ih =>
    unfold attemptLoop
    cases hm : main calls with
    | none => exact absurd hm (hfail calls (Nat.le_refl _) (by omega))
    | some e =>
      simp only
      cases n with
      | zero => simp [attemptLoop]
      | succ m =>
        have := ih (calls + 1) (some e) (by omega) (fun j h1 h2 => hfail j (by omega) (by omega))
        refine ⟨by rw [this.1]; omega, this.2⟩

theorem attemptLoop_first_success (main : Nat → Option String) (remaining calls k : Nat)
    (err : Option String) (hk : calls < k) (hle : k ≤ calls + remaining)
    (hok : main (k - 1) = none) (hfail : ∀ j, calls ≤ j → j < k - 1 → main j ≠ none) :
    attemptLoop main remaining calls err = (none, k) := by
  induction remaining generalizing calls err with
  | zero => omega
  | succ n ih =>
    unfold attemptLoop
    by_cases hlast : calls = k - 1
    · rw [hlast, hok]
      simp only
      congr 1
      omega
    · cases hm : main calls with
      | none => exact absurd hm (hfail calls (Nat.le_refl _) (by omega))
      | some e =>
        simp only
        exact ih (calls + 1) (some e) (by omega) (by omega)
          (fun j h1 h2 => hfail j (by omega) h2)

/-- C15.  For an attempt limit `n` of at least 1, `WithAttempts(n, f)` calls
`f` until a call returns nil or `n` calls are made: when the call number `k`
(from 1, at most `n`) is the first to return nil, exactly `k` calls are made
and nil is returned; when the first `n` calls all fail, exactly `n` calls
are made and an error is returned. -/
theorem WithAttempts_calls (n : Nat) (main : Nat → Option String) (hn : 1 ≤ n) :
    (∀ k, 1 ≤ k → k ≤ n → main (k - 1) = none → (∀ j, j < k - 1 → main j ≠ none) →
      WithAttempts n main = (none, k)) ∧
    ((∀ j, j < n → main j ≠ none) →
      (WithAttempts n main).2 = n ∧ (WithAttempts n main).1 ≠ none) := by
  refine ⟨?_, ?_⟩
  · intro k hk1 hkn hok hfail
    exact attemptLoop_first_success main n 0 k none (by omega) (by omega) hok
      (fun j _ h2 => hfail j h2)
  · intro hfail
    have := attemptLoop_all_fail main n 0 none hn (fun j _ h2 => hfail j (by omega))
    simpa [WithAttempts] using this

theorem WithAttempts_calls_witness :
    WithAttempts 3 (fun _ => none) = (none, 1) ∧
    ((WithAttempts 3 (fun _ => some "someError")).2 = 3 ∧
      (WithAttempts 3 (fun _ => some "someError")).1 ≠ none) ∧
    WithAttempts 3 (fun calls => if calls + 1 ≠ 3 then some "someError" else none)
      = (none, 3) :=
  ⟨(WithAttempts_calls 3 (fun _ => none) (by decide)).1 1 (by decide) (by decide) rfl
      (fun j hj => absurd hj (by omega)),
   (WithAttempts_calls 3 (fun _ => some "someError") (by decide)).2 (fun _ _ => by simp),
   (WithAttempts_calls 3 (fun calls => if calls + 1 ≠ 3 then some "someError" else none)
      (by decide)).1 3 (by decide) (by decide) (by simp)
      (fun j hj => by
        have : j + 1 ≠ 3 := by omega
        simp [this])⟩

/-- C20.  For every `n`, `Int64Value(Int64RefOrNil(n))` and
`Int64Value(Int64Ref(n))` are `n`; `Int64RefOrNil(n)` is nil exactly when
`n` is 0, and `Int64Value` of nil is 0. -/
theorem Int64Value_roundtrip (n : Int) :
    Int64Value (Int64RefOrNil n) = n ∧
    Int64Value (Int64Ref n) = n ∧
    (Int64RefOrNil n = none ↔ n = 0) ∧
    Int64Value none = 0 := by
  refine ⟨?_, rfl, ?_, rfl⟩
  · unfold Int64RefOrNil
    by_cases h : n = 0
    · rw [if_pos h, h]
      rfl
    · rw [if_neg h]
      rfl
  · unfold Int64RefOrNil
    by_cases h : n = 0
    · simp [h]
    · simp [h, Int64Ref]

end Common
